import Mathlib

/-!
Verification of the gbzip core (POSIX build) against its specification.

The development shallowly embeds the C sources:
  - src/zipignore.c : .zipignore parsing, hierarchical loading, scope-aware
    gitignore-style matching (including the backtracking glob matcher);
  - src/diff.c      : comparison of an existing archive against a directory
    tree and application of the resulting change set;
  - src/zip.c       : the file collector that derives archive paths, and the
    extraction-time path-safety gate;
  - src/utils.c     : is_safe_path, join_path, traverse_directory.

Paths and file contents are lists of characters; `time_t` and `off_t` are
embedded as `Int`.  The POSIX branch of the sources is modelled, so
PATH_SEPARATOR is the forward slash and PATH_MAX is 4096.  Everything is
executable so that all concrete scenarios evaluate by `decide`.
-/

/-- PATH_MAX of the modelled POSIX build (include/gbzip.h). -/
def PATH_MAX : Nat := 4096

/-- include/zipignore.h -/
def MAX_IGNORE_PATTERNS : Nat := 1000

/-- include/zipignore.h -/
def MAX_PATTERN_LENGTH : Nat := 256

/-- include/zipignore.h -/
def MAX_RECURSION_DEPTH : Nat := 100

/-- include/zipignore.h -/
def MAX_ZIPIGNORE_FILES : Nat := 100

/-- Exit codes from include/gbzip.h. -/
def EXIT_SUCCESS : Int := 0

def EXIT_FAILURE : Int := 1

def EXIT_INVALID_ARGS : Int := 2

def EXIT_FILE_ERROR : Int := 3

def EXIT_ZIP_ERROR : Int := 4

/-- ZIPIGNORE_FILENAME from include/gbzip.h, as a character list. -/
def ZIPIGNORE_FILENAME : List Char :=
  ['.', 'z', 'i', 'p', 'i', 'g', 'n', 'o', 'r', 'e']

/-- Scan of a character class body, one-to-one with the `[` branch of
pattern_match_gitignore_recursive (src/zipignore.c, the while loop scanning
up to the closing bracket).  `c` is the text character being examined, the
Bool accumulator is `matched`.  Returns `none` when the pattern ends before
a closing bracket (the malformed-class case of the C code), otherwise the
final `matched` flag and the pattern rest after the closing bracket.
A range's end is never the closing bracket (`p[2] != ']'`); when `]` sits in
that position the C loop consumes `a` and then `-` as two ordinary class
members and closes, which is a single case here so that every branch
recurses structurally. -/
def bracketScan (c : Char) : List Char → Bool → Option (Bool × List Char)
  | [], _ => none
  | ']' :: rest, m => some (m, rest)
  | a :: '-' :: ']' :: rest, m =>
      some (m || decide (a = c) || decide ('-' = c), rest)
  | a :: '-' :: b :: rest, m => bracketScan c rest (m || decide (a ≤ c ∧ c ≤ b))
  | a :: rest, m => bracketScan c rest (m || decide (a = c))

/-- The trailing `while (*p == '*') p++; return *p == 0;` epilogue of
pattern_match_gitignore_recursive, reached when the text is exhausted. -/
def skipStars : List Char → Bool
  | [] => true
  | '*' :: r => skipStars r
  | _ => false

/-- First lexicographic component of the termination measure of the matcher
loop: the saved backtracking text position dominates the current text
position in every state the C code can reach; `max` makes the bound total. -/
def starMeasure : Option (List Char × List Char) → List Char → Nat
  | none, t => t.length
  | some (_, ts), t => max ts.length t.length

theorem sqPair_lt {a b c d : Nat} (hb : b ≤ a)
    (h : a < c ∨ (a = c ∧ b < d)) : a * a + b < c * c + d := by
  rcases h with h | ⟨h1, h2⟩
  · have h3 : (a + 1) * (a + 1) ≤ c * c :=
      Nat.mul_le_mul (Nat.succ_le_of_lt h) (Nat.succ_le_of_lt h)
    have h4 : (a + 1) * (a + 1) = a * a + 2 * a + 1 := by ring
    omega
  · subst h1; omega

theorem lexTriple_lt {a b c a2 b2 c2 : Nat}
    (h : a < a2 ∨ (a = a2 ∧ (b < b2 ∨ (b = b2 ∧ c < c2)))) :
    Prod.Lex (fun x y => x < y) (Prod.Lex (fun x y => x < y) fun x y => x < y)
      (a, b, c) (a2, b2, c2) := by
  rcases h with h | ⟨h1, h | ⟨h2, h3⟩⟩
  · exact Prod.Lex.left _ _ h
  · subst h1; exact Prod.Lex.right _ (Prod.Lex.left _ _ h)
  · subst h1; subst h2; exact Prod.Lex.right _ (Prod.Lex.right _ h3)

theorem starMeasure_cons_le (star : Option (List Char × List Char)) (c : Char)
    (t1 : List Char) : starMeasure star t1 ≤ starMeasure star (c :: t1) := by
  rcases star with _ | ⟨ps, ts⟩ <;> simp [starMeasure] <;> omega

/-- The body of pattern_match_gitignore_recursive (src/zipignore.c 317-460):
the `while (*t)` loop is the recursion at constant `depth`, with `p`/`t` the
current pattern/text rests and `star` the saved backtracking state
(`p_star`, `t_star`); the `**` branch re-enters the function at `depth + 1`
for every text suffix, and `depth > MAX_RECURSION_DEPTH` returns false. -/
def gmatchLoop (depth : Nat) (p t : List Char)
    (star : Option (List Char × List Char)) : Bool :=
  if MAX_RECURSION_DEPTH < depth then false
  else
    match t with
    | [] => skipStars p
    | c :: t1 =>
      match p with
      | '*' :: '*' :: p2 =>
          let p3 := p2.dropWhile (fun x => x = '/')
          if p3 = [] then true
          else (c :: t1).tails.any (fun s => gmatchLoop (depth + 1) p3 s none)
      | '*' :: p2 => gmatchLoop depth p2 (c :: t1) (some (p2, c :: t1))
      | '?' :: p2 =>
          if c = '/' then
            match star with
            | some (ps, ts) => gmatchLoop depth ps ts.tail (some (ps, ts.tail))
            | none => false
          else gmatchLoop depth p2 t1 star
      | '[' :: p1 =>
          let negated : Bool :=
            match p1 with
            | '!' :: _ => true
            | '^' :: _ => true
            | _ => false
          let pbody : List Char :=
            match p1 with
            | '!' :: r => r
            | '^' :: r => r
            | _ => p1
          match bracketScan c pbody false with
          | some (m, rest) =>
              if (if negated then !m else m) then gmatchLoop depth rest t1 star
              else
                match star with
                | some (ps, ts) => gmatchLoop depth ps ts.tail (some (ps, ts.tail))
                | none => false
          | none =>
              if c = '[' then gmatchLoop depth p1 t1 star
              else
                match star with
                | some (ps, ts) => gmatchLoop depth ps ts.tail (some (ps, ts.tail))
                | none => false
      | cp :: p2 =>
          if cp = c then gmatchLoop depth p2 t1 star
          else
            match star with
            | some (ps, ts) =>
                if ts.head? = some '/' then false
                else gmatchLoop depth ps ts.tail (some (ps, ts.tail))
            | none => false
      | [] =>
          match star with
          | some (ps, ts) =>
              if ts.head? = some '/' then false
              else gmatchLoop depth ps ts.tail (some (ps, ts.tail))
          | none => false
termination_by
  (MAX_RECURSION_DEPTH + 1 - depth,
   starMeasure star t * starMeasure star t + t.length, p.length)
decreasing_by
  · apply lexTriple_lt
    exact Or.inl (by omega)
  · apply lexTriple_lt
    refine Or.inr ⟨rfl, ?_⟩
    have h1 : starMeasure (some (p2, c :: t1)) (c :: t1) ≤
        starMeasure star (c :: t1) := by
      rcases star with _ | ⟨ps, ts⟩ <;> simp [starMeasure]
    have h2 := Nat.mul_le_mul h1 h1
    simp only [List.length_cons]
    omega
  · apply lexTriple_lt
    refine Or.inr ⟨rfl, Or.inl ?_⟩
    simp only [starMeasure, Nat.max_self, List.length_tail, List.length_cons]
    refine sqPair_lt (Nat.le_refl _) (Or.inl ?_)
    have h2 := Nat.le_max_right ts.length (t1.length + 1)
    omega
  · apply lexTriple_lt
    refine Or.inr ⟨rfl, Or.inl ?_⟩
    have h1 := starMeasure_cons_le star c t1
    have h2 := Nat.mul_le_mul h1 h1
    simp only [List.length_cons]
    omega
  · apply lexTriple_lt
    refine Or.inr ⟨rfl, Or.inl ?_⟩
    have h1 := starMeasure_cons_le star c t1
    have h2 := Nat.mul_le_mul h1 h1
    simp only [List.length_cons]
    omega
  · apply lexTriple_lt
    refine Or.inr ⟨rfl, Or.inl ?_⟩
    simp only [starMeasure, Nat.max_self, List.length_tail, List.length_cons]
    refine sqPair_lt (Nat.le_refl _) (Or.inl ?_)
    have h2 := Nat.le_max_right ts.length (t1.length + 1)
    omega
  · apply lexTriple_lt
    refine Or.inr ⟨rfl, Or.inl ?_⟩
    have h1 := starMeasure_cons_le star c t1
    have h2 := Nat.mul_le_mul h1 h1
    simp only [List.length_cons]
    omega
  · apply lexTriple_lt
    refine Or.inr ⟨rfl, Or.inl ?_⟩
    simp only [starMeasure, Nat.max_self, List.length_tail, List.length_cons]
    refine sqPair_lt (Nat.le_refl _) (Or.inl ?_)
    have h2 := Nat.le_max_right ts.length (t1.length + 1)
    omega
  · apply lexTriple_lt
    refine Or.inr ⟨rfl, Or.inl ?_⟩
    have h1 := starMeasure_cons_le star c t1
    have h2 := Nat.mul_le_mul h1 h1
    simp only [List.length_cons]
    omega
  · apply lexTriple_lt
    refine Or.inr ⟨rfl, Or.inl ?_⟩
    simp only [starMeasure, Nat.max_self, List.length_tail, List.length_cons]
    refine sqPair_lt (Nat.le_refl _) (Or.inl ?_)
    have h2 := Nat.le_max_right ts.length (t1.length + 1)
    omega
  · apply lexTriple_lt
    refine Or.inr ⟨rfl, Or.inl ?_⟩
    simp only [starMeasure, Nat.max_self, List.length_tail, List.length_cons]
    refine sqPair_lt (Nat.le_refl _) (Or.inl ?_)
    have h2 := Nat.le_max_right ts.length (t1.length + 1)
    omega

/-- pattern_match_gitignore_recursive (src/zipignore.c 317). -/
def pattern_match_gitignore_recursive (pattern text : List Char)
    (depth : Nat) : Bool :=
  gmatchLoop depth pattern text none

/-- pattern_match_gitignore (src/zipignore.c 463-465). -/
def pattern_match_gitignore (pattern text : List Char) : Bool :=
  pattern_match_gitignore_recursive pattern text 0

unseal gmatchLoop

/-- ignore_pattern_t (include/zipignore.h). -/
structure ignore_pattern_t where
  pattern : List Char
  scope_dir : List Char
  is_directory : Bool
  is_negation : Bool
  is_anchored : Bool
deriving DecidableEq

/-- zipignore_t (include/zipignore.h); the fixed-size arrays plus their
counts are lists. -/
structure zipignore_t where
  patterns : List ignore_pattern_t
  base_dir : List Char
  loaded_files : List (List Char)
deriving DecidableEq

/-- normalize_path (src/zipignore.c 492-519), POSIX build: both separators
become PATH_SEPARATOR = `/`, a trailing separator is dropped unless the
whole path is just the root, and strncpy truncates at PATH_MAX - 1. -/
def normalize_path (path : List Char) : List Char :=
  let n := (path.take (PATH_MAX - 1)).map
    (fun ch => if ch = '/' ∨ ch = '\\' then '/' else ch)
  if 1 < n.length ∧ n.getLast? = some '/' then n.dropLast else n

/-- The backslash-to-forward-slash rewrite should_ignore applies to the
normalized path and to each pattern scope (src/zipignore.c 204-206,
231-233). -/
def toSlash (s : List Char) : List Char :=
  s.map (fun ch => if ch = '\\' then '/' else ch)

def containsSlash (s : List Char) : Bool :=
  s.any (fun ch => ch = '/')

/-- strrchr(s, '/') + 1, or s itself when there is no slash: the basename
fallback of should_ignore (src/zipignore.c 281-288). -/
def afterLastSlash (s : List Char) : List Char :=
  (s.reverse.takeWhile (fun ch => ¬ ch = '/')).reverse

/-- The scope test of should_ignore (src/zipignore.c 235-257): an empty
scope applies globally, otherwise the path must extend the scope at a
component boundary; returns the path relative to the scope. -/
def scopeRel (match_path scope : List Char) : Option (List Char) :=
  if scope.length = 0 then some match_path
  else if scope = match_path.take scope.length then
    match match_path.drop scope.length with
    | [] => some []
    | '/' :: r => some r
    | _ => none
  else none

/-- The per-pattern match of should_ignore (src/zipignore.c 268-301):
anchored patterns glob against the whole relative path; non-anchored ones
also fall back to the basename when the glob has no slash; directory
patterns additionally match any path strictly inside the named directory. -/
def patternMatchesHere (pat : ignore_pattern_t) (rel : List Char) : Bool :=
  let direct := pattern_match_gitignore pat.pattern rel
  let m :=
    if pat.is_anchored then direct
    else if direct then true
    else if ¬ containsSlash pat.pattern then
      pattern_match_gitignore pat.pattern (afterLastSlash rel)
    else false
  if ¬ m ∧ pat.is_directory then
    decide (pat.pattern = rel.take pat.pattern.length) &&
      decide ((rel.drop pat.pattern.length).head? = some '/')
  else m

/-- The match path should_ignore derives from its argument
(src/zipignore.c 195-206): normalize, then rewrite backslashes. -/
def matchPathOf (path : List Char) : List Char :=
  toSlash (normalize_path path)

/-- One iteration of the pattern loop of should_ignore
(src/zipignore.c 219-310): patterns with an empty or over-long glob are
skipped, out-of-scope patterns and an empty relative path are skipped, and
a match overwrites the flag — with false for a negation pattern. -/
def should_ignore_step (match_path : List Char) (acc : Bool)
    (pat : ignore_pattern_t) : Bool :=
  if pat.pattern.length = 0 ∨ MAX_PATTERN_LENGTH - 1 < pat.pattern.length
  then acc
  else
    match scopeRel match_path (toSlash pat.scope_dir) with
    | none => acc
    | some rel =>
      if rel.length = 0 then acc
      else if patternMatchesHere pat rel then
        (if pat.is_negation then false else true)
      else acc

/-- should_ignore (src/zipignore.c 185-314).  The loop over the pattern
array reads at most MAX_IGNORE_PATTERNS entries; later matching patterns
override earlier ones, a matching negation clearing the flag. -/
def should_ignore (zi : zipignore_t) (path : List Char) : Bool :=
  if PATH_MAX - 1 < path.length then false
  else
    (zi.patterns.take MAX_IGNORE_PATTERNS).foldl
      (should_ignore_step (matchPathOf path)) false

/-- A pattern is applicable to a path exactly when the should_ignore loop
body reaches its flag update: the glob is sane, the path is in scope with a
nonempty relative part, and the pattern matches it. -/
def patternApplicable (match_path : List Char) (pat : ignore_pattern_t) : Bool :=
  if pat.pattern.length = 0 ∨ MAX_PATTERN_LENGTH - 1 < pat.pattern.length
  then false
  else
    match scopeRel match_path (toSlash pat.scope_dir) with
    | none => false
    | some rel =>
      if rel.length = 0 then false
      else patternMatchesHere pat rel

/-- The trailing-whitespace trim of load_patterns_from_file
(src/zipignore.c 30-41), working from the end of the line: trailing spaces
and tabs are dropped one by one, except that a whitespace character escaped
by a backslash replaces the backslash and stops the trim. -/
def trimTrailingWsRev : List Char → List Char
  | [] => []
  | ch :: rest =>
      if ch = ' ' ∨ ch = '\t' then
        match rest with
        | '\\' :: r2 => ch :: r2
        | _ => trimTrailingWsRev rest
      else ch :: rest

def trimTrailingWs (s : List Char) : List Char :=
  (trimTrailingWsRev s.reverse).reverse

/-- The per-line pattern compilation of load_patterns_from_file
(src/zipignore.c 21-97): comments and blank lines are skipped, trailing
then leading whitespace is trimmed, a leading `!` sets is_negation, a
trailing `/` sets is_directory, a leading `/` or an interior `/` sets
is_anchored, and the residue (truncated by strncpy to MAX_PATTERN_LENGTH-1,
with the scope truncated to PATH_MAX-1) is the stored glob.  `none` means
the line produces no pattern. -/
def parse_zipignore_line (scope_dir line : List Char) :
    Option ignore_pattern_t :=
  if line = [] ∨ line.head? = some '#' then none
  else
    let l1 := trimTrailingWs line
    if l1 = [] then none
    else
      let t0 := l1.dropWhile (fun ch => ch = ' ' ∨ ch = '\t')
      if t0 = [] then none
      else
        let neg : Bool := t0.head? = some '!'
        let t1 := if t0.head? = some '!' then t0.tail else t0
        let dirOnly : Bool := 0 < t1.length ∧ t1.getLast? = some '/'
        let t2 := if 0 < t1.length ∧ t1.getLast? = some '/' then t1.dropLast
                  else t1
        let anch : Bool :=
          if t2.head? = some '/' then true else containsSlash t2
        let t3 := if t2.head? = some '/' then t2.tail else t2
        if t3 = [] then none
        else some
          { pattern := t3.take (MAX_PATTERN_LENGTH - 1)
            scope_dir := scope_dir.take (PATH_MAX - 1)
            is_directory := dirOnly
            is_negation := neg
            is_anchored := anch }

/-- load_patterns_from_file (src/zipignore.c 10-110) on a file already read
as a list of newline-stripped lines: each line is compiled while the
pattern array has room, and afterwards the file path is recorded in the
loaded-files set if that set has room. -/
def lpffStep (scope_dir : List Char) (z : zipignore_t) (line : List Char) :
    zipignore_t :=
  if z.patterns.length < MAX_IGNORE_PATTERNS then
    match parse_zipignore_line scope_dir line with
    | some p => { z with patterns := z.patterns ++ [p] }
    | none => z
  else z

/-- The loaded-file recording at the end of load_patterns_from_file
(src/zipignore.c 102-107): the path (strncpy-truncated) is appended when
the loaded-files array has room. -/
def lpffRecord (z : zipignore_t) (zipignore_path : List Char) : zipignore_t :=
  if z.loaded_files.length < MAX_ZIPIGNORE_FILES then
    { z with
      loaded_files := z.loaded_files ++ [zipignore_path.take (PATH_MAX - 1)] }
  else z

def load_patterns_from_file (zi : zipignore_t) (lines : List (List Char))
    (zipignore_path scope_dir : List Char) : zipignore_t :=
  lpffRecord (lines.foldl (lpffStep scope_dir) zi) zipignore_path

/-- is_zipignore_loaded (src/zipignore.c 112-123). -/
def is_zipignore_loaded (zi : zipignore_t) (file_path : List Char) : Bool :=
  zi.loaded_files.any (fun f => f = file_path)

/-- The file system visible to the ignore loader: an association list from
absolute paths to file contents given as newline-stripped lines.  Lookup
success is file_exists, the value is what fgets yields line by line. -/
def zipFS : Type := List (List Char × List (List Char))

def zipFS.lines (fs : zipFS) (path : List Char) : Option (List (List Char)) :=
  match fs with
  | [] => none
  | (p, ls) :: rest => if p = path then some ls else zipFS.lines rest path

/-- The `dir_path + PATH_SEPARATOR + ZIPIGNORE_FILENAME` path built by
load_nested_zipignore (src/zipignore.c 172-173), POSIX build; snprintf with
a PATH_MAX buffer truncates it to PATH_MAX - 1 characters. -/
def nestedZipignorePath (dir_path : List Char) : List Char :=
  (dir_path ++ '/' :: ZIPIGNORE_FILENAME).take (PATH_MAX - 1)

/-- load_nested_zipignore (src/zipignore.c 166-183): nothing happens when
the directory has no .zipignore or when that file was already loaded;
otherwise its patterns are appended with the directory as their scope. -/
def load_nested_zipignore (fs : zipFS) (zi : zipignore_t)
    (dir_path : List Char) : Int × zipignore_t :=
  let zipignore_path := nestedZipignorePath dir_path
  match zipFS.lines fs zipignore_path with
  | none => (EXIT_SUCCESS, zi)
  | some ls =>
      if is_zipignore_loaded zi zipignore_path then (EXIT_SUCCESS, zi)
      else (EXIT_SUCCESS, load_patterns_from_file zi ls zipignore_path dir_path)

/-- change_type_t (include/diff.h). -/
inductive change_type_t where
  | CHANGE_NONE
  | CHANGE_ADDED
  | CHANGE_MODIFIED
  | CHANGE_DELETED
deriving DecidableEq

export change_type_t (CHANGE_NONE CHANGE_ADDED CHANGE_MODIFIED CHANGE_DELETED)

/-- file_change_t (include/diff.h); time_t and off_t are Int. -/
structure file_change_t where
  path : List Char
  change_type : change_type_t
  old_mtime : Int
  new_mtime : Int
  old_size : Int
  new_size : Int
deriving DecidableEq

/-- zip_entry_t (include/gbzip_zip.h): one member of the archive's central
directory as read by get_zip_entries. -/
structure zip_entry_t where
  name : List Char
  mtime : Int
  size : Int
  is_directory : Bool
deriving DecidableEq

/-- The on-disk path compare_with_existing_zip builds for an archive entry
name before consulting should_ignore (src/diff.c 152-160): directory +
PATH_SEPARATOR + name, the slash-to-separator rewrite being the identity on
the POSIX build. -/
def fullDiskPath (directory name : List Char) : List Char :=
  directory ++ '/' :: name

/-- The change record compare_with_existing_zip emits for a modified file
(src/diff.c 176-178). -/
def mkModified (e : zip_entry_t) (c : file_change_t) : file_change_t :=
  { path := e.name, change_type := CHANGE_MODIFIED, old_mtime := e.mtime,
    new_mtime := c.new_mtime, old_size := e.size, new_size := c.new_size }

/-- The change record compare_with_existing_zip emits for a deleted file
(src/diff.c 189-190). -/
def mkDeleted (e : zip_entry_t) : file_change_t :=
  { path := e.name, change_type := CHANGE_DELETED, old_mtime := e.mtime,
    new_mtime := 0, old_size := e.size, new_size := 0 }

/-- The inner scan of compare_with_existing_zip (src/diff.c 167-185): find
the first collected file whose path equals the entry name, return it and
mark it processed by overwriting its change_type with CHANGE_NONE. -/
def mark_found (name : List Char) :
    List file_change_t → Option file_change_t × List file_change_t
  | [] => (none, [])
  | c :: cs =>
      if c.path = name then (some c, { c with change_type := CHANGE_NONE } :: cs)
      else
        let r := mark_found name cs
        (r.1, c :: r.2)

/-- The first loop of compare_with_existing_zip (src/diff.c 143-192) over
the archive entries: directory entries and entries whose on-disk path is
ignored are skipped; a matching collected file yields a Modified change
when its mtime is strictly newer or its size differs, and is marked
processed; an entry with no matching collected file yields a Deleted
change.  Returns the collected files after marking and the changes in
emission order. -/
def zipPass (zi : zipignore_t) (directory : List Char) :
    List zip_entry_t → List file_change_t →
    List file_change_t × List file_change_t
  | [], cur => (cur, [])
  | e :: es, cur =>
    if e.is_directory then zipPass zi directory es cur
    else if should_ignore zi (fullDiskPath directory e.name) then
      zipPass zi directory es cur
    else
      match mark_found e.name cur with
      | (some c, cur1) =>
          let rest := zipPass zi directory es cur1
          if e.mtime < c.new_mtime ∨ ¬ c.new_size = e.size then
            (rest.1, mkModified e c :: rest.2)
          else rest
      | (none, cur1) =>
          let rest := zipPass zi directory es cur1
          (rest.1, mkDeleted e :: rest.2)

/-- The second loop of compare_with_existing_zip (src/diff.c 195-213): each
collected file still carrying CHANGE_ADDED whose on-disk path is not
ignored becomes an Added change. -/
def addedPass (zi : zipignore_t) (directory : List Char)
    (cur : List file_change_t) : List file_change_t :=
  (cur.filter (fun c =>
    c.change_type = CHANGE_ADDED ∧
      ¬ should_ignore zi (fullDiskPath directory c.path))).map
    (fun c =>
      { path := c.path, change_type := CHANGE_ADDED, old_mtime := 0,
        new_mtime := c.new_mtime, old_size := 0, new_size := c.new_size })

/-- The change-set computation of compare_with_existing_zip
(src/diff.c 102-220), given the loaded ignore context, the archive entry
index and the collected current files (each collected with CHANGE_ADDED by
collect_files_callback, src/diff.c 5-35). -/
def compare_with_existing_zip (zi : zipignore_t) (directory : List Char)
    (zip_entries : List zip_entry_t) (current_files : List file_change_t) :
    List file_change_t :=
  let r := zipPass zi directory zip_entries current_files
  r.2 ++ addedPass zi directory r.1

/-- Modelled from the spec: the state of an archive opened through the
external archive library.  Per spec section 6 the central directory is
written by the library at close, and per section 4.4 the discard primitive
removes pending work without writing; so an open archive carries the
committed on-disk entry list and the pending in-memory entry list, zip_open
starts them equal, the editing primitives act on the pending list,
zip_close commits it to disk and zip_discard would throw it away. -/
structure zip_archive_t where
  saved : List (List Char × Int)
  current : List (List Char × Int)
deriving DecidableEq

def zip_open (disk : List (List Char × Int)) : zip_archive_t :=
  { saved := disk, current := disk }

/-- zip_name_locate: index of the first pending entry with the name. -/
def zip_name_locate (a : zip_archive_t) (name : List Char) : Option Nat :=
  a.current.findIdx? (fun en => en.1 = name)

def zip_delete (a : zip_archive_t) (idx : Nat) : zip_archive_t :=
  { a with current := a.current.eraseIdx idx }

/-- zip_file_add without ZIP_FL_OVERWRITE fails when the name already
exists, otherwise appends the entry and returns its index. -/
def zip_file_add (a : zip_archive_t) (name : List Char) :
    Option (zip_archive_t × Nat) :=
  if a.current.any (fun en => en.1 = name) then none
  else some ({ a with current := a.current ++ [(name, 0)] }, a.current.length)

def zip_file_set_mtime (a : zip_archive_t) (idx : Nat) (m : Int) :
    zip_archive_t :=
  { a with current :=
      a.current.set idx ((a.current.getD idx ([], 0)).1, m) }

/-- zip_close commits the pending entries; the committed list is the
archive file on disk afterwards. -/
def zip_close (a : zip_archive_t) : List (List Char × Int) :=
  a.current

/-- The loop of apply_changes_to_zip (src/diff.c 240-313) followed by its
final zip_close (src/diff.c 316-319).  `fs` is the set of on-disk files a
zip_source_file call can read.  For Added/Modified changes the Modified
case first deletes the located old entry, then a source is created for
base_dir/<path> (failing when the file is unreadable) and the entry is
added and given the recorded mtime; every error path calls zip_close — not
zip_discard — before returning EXIT_ZIP_ERROR, so it also commits.
Returns the exit code and the resulting on-disk archive. -/
def apply_changes_loop (fs : List (List Char)) (base_dir : List Char) :
    List file_change_t → zip_archive_t → Int × List (List Char × Int)
  | [], a => (EXIT_SUCCESS, zip_close a)
  | ch :: rest, a =>
    match ch.change_type with
    | CHANGE_ADDED | CHANGE_MODIFIED =>
        let file_path := fullDiskPath base_dir ch.path
        let a1 :=
          if ch.change_type = CHANGE_MODIFIED then
            match zip_name_locate a ch.path with
            | some idx => zip_delete a idx
            | none => a
          else a
        if fs.any (fun f => f = file_path) then
          match zip_file_add a1 ch.path with
          | some (a2, idx) =>
              apply_changes_loop fs base_dir rest
                (zip_file_set_mtime a2 idx ch.new_mtime)
          | none => (EXIT_ZIP_ERROR, zip_close a1)
        else (EXIT_ZIP_ERROR, zip_close a1)
    | CHANGE_DELETED =>
        match zip_name_locate a ch.path with
        | some idx => apply_changes_loop fs base_dir rest (zip_delete a idx)
        | none => apply_changes_loop fs base_dir rest a
    | CHANGE_NONE => apply_changes_loop fs base_dir rest a

/-- apply_changes_to_zip (src/diff.c 222-322) on an archive whose on-disk
entry list is `disk`. -/
def apply_changes_to_zip (fs : List (List Char)) (base_dir : List Char)
    (disk : List (List Char × Int)) (changes : List file_change_t) :
    Int × List (List Char × Int) :=
  apply_changes_loop fs base_dir changes (zip_open disk)

/-- A directory tree on disk, as enumerated by traverse_directory
(src/utils.c 315-426): each node is a readdir name together with, for
directories, the child nodes in enumeration order. -/
inductive fs_node_t where
  | file (name : List Char) (mtime size : Int)
  | dir (name : List Char) (children : List fs_node_t)

/-- file_entry_t (src/zip.c): one unit of archive work produced by
collect_files_callback. -/
structure file_entry_t where
  file_path : List Char
  archive_path : List Char
  size : Int
  mtime : Int
  is_directory : Bool
deriving DecidableEq

/-- join_path (src/utils.c 221-241), POSIX build: a separator is inserted
only when the directory part is nonempty and does not already end in one. -/
def join_path (dir file : List Char) : List Char :=
  if 0 < dir.length ∧ ¬ dir.getLast? = some '/' then dir ++ '/' :: file
  else dir ++ file

/-- The archive-path computation of collect_files_callback
(src/zip.c 509-535): strip the base-directory prefix and a following
separator, copy into the PATH_MAX buffer — the strncpy at src/zip.c
518-520 keeps only the first PATH_MAX - 1 characters — rewrite
backslashes to forward slashes, and give directories a trailing slash
when they lack one. -/
def make_archive_path (base_dir full_path : List Char) (isDir : Bool) :
    List Char :=
  let relative :=
    if base_dir = full_path.take base_dir.length then
      let r := full_path.drop base_dir.length
      if r.head? = some '/' then r.tail else r
    else full_path
  let ap := (relative.take (PATH_MAX - 1)).map
    (fun ch => if ch = '\\' then '/' else ch)
  if isDir ∧ 0 < ap.length ∧ ¬ ap.getLast? = some '/' then ap ++ ['/']
  else ap

/- traverse_directory (src/utils.c 380-423) feeding collect_files_callback
(src/zip.c 477-540), with the evolving ignore context abstracted by the
per-path decision `ign` (sound because the walk visits each path once):
readdir entries named `.` or `..` are skipped; for every other entry the
heap path join_path(dir, name) is built, the callback sees its strncpy
copy info.path truncated to PATH_MAX - 1 characters (src/utils.c 396-397)
— it emits a file_entry_t from that copy unless the path is ignored — and
directories are then descended into with the untruncated heap path. -/
mutual

/-- One traverse_directory entry: see the comment above the mutual block. -/
def collectNode (ign : List Char → Bool) (base_dir dir_path : List Char) :
    fs_node_t → List file_entry_t
  | .file name mtime size =>
      if name = ['.'] ∨ name = ['.', '.'] then []
      else
        let cb := (join_path dir_path name).take (PATH_MAX - 1)
        if ign cb then []
        else [{ file_path := cb,
                archive_path := make_archive_path base_dir cb false,
                size := size, mtime := mtime, is_directory := false }]
  | .dir name children =>
      if name = ['.'] ∨ name = ['.', '.'] then []
      else
        let full := join_path dir_path name
        let cb := full.take (PATH_MAX - 1)
        (if ign cb then []
         else [{ file_path := cb,
                 archive_path := make_archive_path base_dir cb true,
                 size := 0, mtime := 0, is_directory := true }]) ++
          collectList ign base_dir full children

def collectList (ign : List Char → Bool) (base_dir dir_path : List Char) :
    List fs_node_t → List file_entry_t
  | [] => []
  | n :: rest =>
      collectNode ign base_dir dir_path n ++
        collectList ign base_dir dir_path rest

end

/-- The collection phase of create_zip for a directory root (src/zip.c
589-611): the walk starts at the base directory itself. -/
def collect_files (ign : List Char → Bool) (base_dir : List Char)
    (tree : List fs_node_t) : List file_entry_t :=
  collectList ign base_dir base_dir tree

/-- is_safe_path (src/utils.c 271-291), POSIX build: any occurrence of the
two-character sequence `..`, a leading `/`, or an over-long path is
rejected. -/
def hasDotDot : List Char → Bool
  | [] => false
  | c :: rest =>
      (decide (c = '.') && decide (rest.head? = some '.')) || hasDotDot rest

def is_safe_path (path : List Char) : Bool :=
  if hasDotDot path then false
  else if path.head? = some '/' then false
  else if PATH_MAX ≤ path.length then false
  else true

/-- The dirname truncation extract_file_from_zip performs before creating
parent directories (src/zip.c 1179-1191): cut at the last separator. -/
def dirnameOf (p : List Char) : List Char :=
  ((p.reverse.dropWhile (fun ch => ¬ ch = '/')).tail).reverse

/-- extract_file_from_zip (src/zip.c 1129-1230) for the entry name `name`,
returning the exit code and the paths written beneath the output directory
(created directories and the extracted file).  An entry failing
is_safe_path is skipped with a warning: the function returns EXIT_SUCCESS
without writing anything.  I/O failures of the happy path are not modelled;
they abort the caller's loop exactly like any other non-success code. -/
def extract_file_from_zip (output_dir name : List Char) :
    Int × List (List Char) :=
  if is_safe_path name = false then (EXIT_SUCCESS, [])
  else
    let output_path := join_path output_dir name
    if 0 < name.length ∧ name.getLast? = some '/' then
      (EXIT_SUCCESS, [output_path])
    else
      (EXIT_SUCCESS,
        (if containsSlash output_path then [dirnameOf output_path] else []) ++
          [output_path])

/-- The extraction loop of extract_zip (src/zip.c 1006-1009): entries are
processed in order and the loop stops at the first non-success result. -/
def extract_all (output_dir : List Char) :
    List (List Char) → Int × List (List Char)
  | [] => (EXIT_SUCCESS, [])
  | name :: rest =>
      let r := extract_file_from_zip output_dir name
      if ¬ r.1 = EXIT_SUCCESS then r
      else
        let rr := extract_all output_dir rest
        (rr.1, r.2 ++ rr.2)

/-! ## Auxiliary facts used by the claim theorems -/

theorem foldl_patterns_loaded_files (scope : List Char) :
    ∀ (lines : List (List Char)) (z : zipignore_t),
      (lines.foldl (lpffStep scope) z).loaded_files = z.loaded_files := by
  intro lines
  induction lines with
  | nil => intro z; rfl
  | cons l ls ih =>
    intro z
    simp only [List.foldl_cons]
    rw [ih]
    unfold lpffStep
    by_cases h : z.patterns.length < MAX_IGNORE_PATTERNS
    · simp only [if_pos h]
      cases parse_zipignore_line scope l <;> rfl
    · simp only [if_neg h]

theorem is_loaded_after_load (zi : zipignore_t) (lines : List (List Char))
    (path scope : List Char)
    (hcap : zi.loaded_files.length < MAX_ZIPIGNORE_FILES)
    (hself : path.take (PATH_MAX - 1) = path) :
    is_zipignore_loaded (load_patterns_from_file zi lines path scope) path
      = true := by
  unfold load_patterns_from_file lpffRecord
  rw [foldl_patterns_loaded_files scope lines zi]
  simp only [hcap, if_pos, is_zipignore_loaded, hself, List.any_append,
    List.any_cons, List.any_nil, decide_True, Bool.or_true, Bool.true_or]

theorem hasDotDot_append (l r : List Char) :
    hasDotDot (l ++ '.' :: '.' :: r) = true := by
  induction l with
  | nil => simp [hasDotDot]
  | cons c cs ih => simp [hasDotDot, ih]

/-! ## Claim C9 -/

/-- C9: the backtracking glob matcher is total (it is a Lean function,
defined by well-founded recursion on the depth budget and the text
positions), and a call whose depth exceeds MAX_RECURSION_DEPTH = 100
returns false without recursing. -/
theorem C9_depth_guard (p t : List Char) (d : Nat)
    (h : MAX_RECURSION_DEPTH < d) :
    pattern_match_gitignore_recursive p t d = false := by
  unfold pattern_match_gitignore_recursive
  rw [gmatchLoop.eq_def]
  simp [h]

theorem C9_depth_guard_witness :
    pattern_match_gitignore_recursive ['a'] ['a'] 101 = false :=
  C9_depth_guard ['a'] ['a'] 101 (by decide)

/-! ## Claim C10 -/

/-- C10: is_safe_path rejects every path containing the two-character
substring `..` anywhere, even inside a single file-name component, and the
extraction loop treats an entry failing is_safe_path as a skip: the entry
contributes no writes and no error, so extraction of the remaining entries
proceeds exactly as if the unsafe entry were absent. -/
theorem C10_unsafe_entries_skipped :
    (∀ l r : List Char, is_safe_path (l ++ '.' :: '.' :: r) = false) ∧
    (∀ (out : List Char) (pre post : List (List Char)) (bad : List Char),
        is_safe_path bad = false →
        extract_all out (pre ++ bad :: post) = extract_all out (pre ++ post)) := by
  constructor
  · intro l r
    simp [is_safe_path, hasDotDot_append]
  · intro out pre post bad hbad
    induction pre with
    | nil =>
      simp only [List.nil_append, extract_all, extract_file_from_zip, hbad]
      simp
    | cons x xs ih =>
      simp only [List.cons_append, extract_all, List.append_eq]
      rw [ih]

theorem C10_unsafe_entries_skipped_witness :
    is_safe_path ['a', '.', '.', 'b'] = false ∧
    extract_all ['o'] [['k'], ['a', '.', '.', 'b']] = extract_all ['o'] [['k']] :=
  ⟨C10_unsafe_entries_skipped.1 ['a'] ['b'],
   C10_unsafe_entries_skipped.2 ['o'] [['k']] [] ['a', '.', '.', 'b']
     (C10_unsafe_entries_skipped.1 ['a'] ['b'])⟩

/-! ## Claim C6 -/

/-- C6: the spec's glob table is violated by the backtracking matcher: `*`
can cross a `/`.  The pattern `*?` matches `a/b` — under the documented
semantics it could not, since `?` never matches `/` (so `?` must consume
`b`) and `*` must then consume `a/`, crossing the slash; the unguarded
backtrack in the `?` branch of pattern_match_gitignore_recursive steps the
saved text position past the `/`.  The concrete `**/secret.key` examples
of the claim do hold. -/
theorem C6_star_crosses_slash :
    pattern_match_gitignore ['*', '?'] ['a', '/', 'b'] = true ∧
    pattern_match_gitignore
      ['*', '*', '/', 's', 'e', 'c', 'r', 'e', 't', '.', 'k', 'e', 'y']
      ['s', 'e', 'c', 'r', 'e', 't', '.', 'k', 'e', 'y'] = true ∧
    pattern_match_gitignore
      ['*', '*', '/', 's', 'e', 'c', 'r', 'e', 't', '.', 'k', 'e', 'y']
      ['a', '/', 's', 'e', 'c', 'r', 'e', 't', '.', 'k', 'e', 'y'] = true ∧
    pattern_match_gitignore
      ['*', '*', '/', 's', 'e', 'c', 'r', 'e', 't', '.', 'k', 'e', 'y']
      ['a', '/', 'b', '/', 'c', '/', 's', 'e', 'c', 'r', 'e', 't', '.', 'k',
       'e', 'y'] = true ∧
    pattern_match_gitignore
      ['*', '*', '/', 's', 'e', 'c', 'r', 'e', 't', '.', 'k', 'e', 'y']
      ['s', 'e', 'c', 'r', 'e', 't', '.', 'k', 'e', 'y', 's'] = false := by
  refine ⟨by decide, by decide, by decide, by decide, by decide⟩

/-! ## Claim C7 -/

/-- The pattern the loader compiles from the line `build/` with scope
`/p`. -/
def c7pat : ignore_pattern_t :=
  { pattern := ['b', 'u', 'i', 'l', 'd'], scope_dir := ['/', 'p'],
    is_directory := true, is_negation := false, is_anchored := false }

def c7zi : zipignore_t :=
  { patterns := [c7pat], base_dir := ['/', 'p'], loaded_files := [] }

/-- C7 counterexample: the pattern compiled from the line `build/` makes
should_ignore return true for the path of a regular file named `build`
(should_ignore never consults the file type, so the directory-only flag
cannot restrict the match to directories). -/
theorem C7_counterexample_plain_file_named_build_is_ignored :
    parse_zipignore_line ['/', 'p'] ['b', 'u', 'i', 'l', 'd', '/'] = some c7pat ∧
    should_ignore c7zi ['/', 'p', '/', 'b', 'u', 'i', 'l', 'd'] = true := by
  refine ⟨by decide, by decide⟩

/-- C7 amended: a directory-only pattern (`build/`) matches the named path
itself — whether it is a directory or a regular file, since matching is
purely textual — and everything inside the named directory, but not paths
that merely extend the name. -/
theorem C7_directory_pattern_matches_textually :
    should_ignore c7zi ['/', 'p', '/', 'b', 'u', 'i', 'l', 'd'] = true ∧
    should_ignore c7zi ['/', 'p', '/', 'b', 'u', 'i', 'l', 'd', '/', 'x'] = true ∧
    should_ignore c7zi ['/', 'p', '/', 'b', 'u', 'i', 'l', 'd', 'x'] = false ∧
    should_ignore c7zi ['/', 'p', '/', 'z'] = false := by
  refine ⟨by decide, by decide, by decide, by decide⟩

/-! ## Claim C8 -/

/-- C8: loading a directory's .zipignore again is a no-op.  First, when the
file's absolute path is already in the loaded-files set the call returns
the context unchanged.  Second, as long as the loaded-files set is below
its cap (so that the first load records the path), loading twice leaves
exactly the pattern count of a single load. -/
theorem C8_nested_zipignore_dedup :
    (∀ (fs : zipFS) (zi : zipignore_t) (dir : List Char),
        is_zipignore_loaded zi (nestedZipignorePath dir) = true →
        load_nested_zipignore fs zi dir = (EXIT_SUCCESS, zi)) ∧
    (∀ (fs : zipFS) (zi : zipignore_t) (dir : List Char),
        zi.loaded_files.length < MAX_ZIPIGNORE_FILES →
        ((load_nested_zipignore fs
            (load_nested_zipignore fs zi dir).2 dir).2).patterns.length =
          ((load_nested_zipignore fs zi dir).2).patterns.length) := by
  constructor
  · intro fs zi dir h
    cases hl : zipFS.lines fs (nestedZipignorePath dir) with
    | none => simp [load_nested_zipignore, hl]
    | some ls => simp [load_nested_zipignore, hl, h]
  · intro fs zi dir hcap
    cases hl : zipFS.lines fs (nestedZipignorePath dir) with
    | none => simp [load_nested_zipignore, hl]
    | some ls =>
      by_cases h : is_zipignore_loaded zi (nestedZipignorePath dir) = true
      · simp [load_nested_zipignore, hl, h]
      · have hfalse : is_zipignore_loaded zi (nestedZipignorePath dir) = false := by
          cases hx : is_zipignore_loaded zi (nestedZipignorePath dir)
          · rfl
          · exact absurd hx h
        have hafter : is_zipignore_loaded
            (load_patterns_from_file zi ls (nestedZipignorePath dir) dir)
            (nestedZipignorePath dir) = true := by
          refine is_loaded_after_load zi ls (nestedZipignorePath dir) dir hcap ?_
          simp [nestedZipignorePath, List.take_take]
        simp [load_nested_zipignore, hl, hfalse, hafter]

def c8fs : zipFS :=
  [(nestedZipignorePath ['b'], [['*', '.', 'l'], ['#', ' ', 'c']])]

def c8zi0 : zipignore_t :=
  { patterns := [], base_dir := ['b'], loaded_files := [] }

def c8ziLoaded : zipignore_t :=
  { patterns := [c7pat], base_dir := ['b'],
    loaded_files := [nestedZipignorePath ['b']] }

theorem C8_nested_zipignore_dedup_witness :
    load_nested_zipignore c8fs c8ziLoaded ['b'] = (EXIT_SUCCESS, c8ziLoaded) ∧
    ((load_nested_zipignore c8fs
        (load_nested_zipignore c8fs c8zi0 ['b']).2 ['b']).2).patterns.length =
      ((load_nested_zipignore c8fs c8zi0 ['b']).2).patterns.length :=
  ⟨C8_nested_zipignore_dedup.1 c8fs c8ziLoaded ['b'] (by decide),
   C8_nested_zipignore_dedup.2 c8fs c8zi0 ['b'] (by decide)⟩

/-! ## Claim C2 -/

def c2chA : file_change_t :=
  { path := ['a'], change_type := CHANGE_ADDED, old_mtime := 0,
    new_mtime := 5, old_size := 0, new_size := 1 }

def c2chC : file_change_t :=
  { path := ['c'], change_type := CHANGE_ADDED, old_mtime := 0,
    new_mtime := 6, old_size := 0, new_size := 1 }

/-- C2 (code bug): apply_changes_to_zip does abort with an error when a
change fails, but its error paths call zip_close — which commits the
pending edits — rather than zip_discard, so the archive is NOT left
unchanged.  At the failing input below the archive starts empty, the first
Added change succeeds, the second fails to create its file source, and the
returned archive contains the first file: a partial change was saved. -/
theorem C2_error_path_commits_partial_changes :
    apply_changes_to_zip [['b', '/', 'a']] ['b'] [] [c2chA, c2chC] =
      (EXIT_ZIP_ERROR, [(['a'], 5)]) ∧
    ¬ (apply_changes_to_zip [['b', '/', 'a']] ['b'] [] [c2chA, c2chC]).2 =
      ([] : List (List Char × Int)) := by
  refine ⟨by decide, by decide⟩

/-! ## Claim C3 -/

theorem foldl_lastwins {α : Type} (app eff : α → Bool) (s : Bool → α → Bool)
    (hs : ∀ acc x, s acc x = if app x then eff x else acc) :
    ∀ (l : List α) (b : Bool),
      l.foldl s b = ((l.filter app).getLast?).elim b eff := by
  intro l
  induction l using List.reverseRecOn with
  | nil => intro b; rfl
  | append_singleton l x ih =>
    intro b
    rw [List.foldl_append, List.filter_append]
    simp only [List.foldl_cons, List.foldl_nil]
    rw [hs (l.foldl s b) x]
    by_cases hx : app x = true
    · simp [hx, List.getLast?_concat, Option.elim]
    · have hx' : app x = false := by
        cases hxx : app x
        · rfl
        · exact absurd hxx hx
      simp [hx', ih b]

theorem should_ignore_step_applicable (mp : List Char) (acc : Bool)
    (pat : ignore_pattern_t) :
    should_ignore_step mp acc pat =
      if patternApplicable mp pat then !pat.is_negation else acc := by
  unfold should_ignore_step patternApplicable
  by_cases h1 : pat.pattern.length = 0 ∨ MAX_PATTERN_LENGTH - 1 < pat.pattern.length
  · simp only [if_pos h1]
    simp
  · simp only [if_neg h1]
    cases scopeRel mp (toSlash pat.scope_dir) with
    | none => simp
    | some rel =>
      by_cases h2 : rel.length = 0
      · simp [h2]
      · simp only [if_neg h2]
        by_cases h3 : patternMatchesHere pat rel = true
        · simp only [h3, if_pos]
          cases hn : pat.is_negation <;> simp
        · have h3' : patternMatchesHere pat rel = false := by
            cases hx : patternMatchesHere pat rel
            · rfl
            · exact absurd hx h3
          simp [h3']

/-- The effective decision of an applicable-pattern list: that of its last
element, or inclusion when there is none. -/
def effectOfLast (l : List ignore_pattern_t) : Bool :=
  (l.getLast?).elim false (fun q => !q.is_negation)

theorem should_ignore_eq_last (zi : zipignore_t) (path : List Char)
    (hlen : path.length ≤ PATH_MAX - 1)
    (hcap : zi.patterns.length ≤ MAX_IGNORE_PATTERNS) :
    should_ignore zi path =
      effectOfLast (zi.patterns.filter (patternApplicable (matchPathOf path))) := by
  unfold should_ignore effectOfLast
  rw [if_neg (by omega), List.take_of_length_le hcap]
  exact foldl_lastwins (patternApplicable (matchPathOf path))
    (fun q => !q.is_negation) (should_ignore_step (matchPathOf path))
    (fun acc pat => should_ignore_step_applicable (matchPathOf path) acc pat)
    zi.patterns false

/-- C3: within the pattern-count cap, should_ignore equals the effect of
the LAST pattern (in insertion order) that is applicable to the path — in
scope, sane, with a matching glob: false for a negation pattern, true
otherwise — and a path no applicable pattern matches is included.  In
particular appending an applicable pattern makes it decide the path alone:
a negation un-ignores it, a plain pattern (re-)ignores it, whatever came
before. -/
theorem C3_last_applicable_pattern_wins :
    (∀ (zi : zipignore_t) (path : List Char),
        path.length ≤ PATH_MAX - 1 →
        zi.patterns.length ≤ MAX_IGNORE_PATTERNS →
        should_ignore zi path =
          effectOfLast (zi.patterns.filter (patternApplicable (matchPathOf path)))) ∧
    (∀ (zi : zipignore_t) (path : List Char) (q : ignore_pattern_t),
        path.length ≤ PATH_MAX - 1 →
        zi.patterns.length < MAX_IGNORE_PATTERNS →
        patternApplicable (matchPathOf path) q = true →
        should_ignore { zi with patterns := zi.patterns ++ [q] } path =
          !q.is_negation) := by
  constructor
  · exact fun zi path h1 h2 => should_ignore_eq_last zi path h1 h2
  · intro zi path q hlen hcap happ
    have h2 : ({ zi with patterns := zi.patterns ++ [q] } : zipignore_t).patterns.length
        ≤ MAX_IGNORE_PATTERNS := by
      simp only [List.length_append, List.length_cons, List.length_nil]
      omega
    rw [should_ignore_eq_last _ path hlen h2]
    simp [effectOfLast, List.filter_append, List.filter_cons, happ,
      List.getLast?_concat]

def c3p1 : ignore_pattern_t :=
  { pattern := ['*', '.', 'l'], scope_dir := ['/', 'p'],
    is_directory := false, is_negation := false, is_anchored := false }

def c3p2 : ignore_pattern_t :=
  { pattern := ['i', '.', 'l'], scope_dir := ['/', 'p'],
    is_directory := false, is_negation := true, is_anchored := false }

def c3zi : zipignore_t :=
  { patterns := [c3p1], base_dir := ['/', 'p'], loaded_files := [] }

theorem C3_last_applicable_pattern_wins_witness :
    should_ignore c3zi ['/', 'p', '/', 'i', '.', 'l'] =
      effectOfLast (c3zi.patterns.filter
        (patternApplicable (matchPathOf ['/', 'p', '/', 'i', '.', 'l']))) ∧
    should_ignore { c3zi with patterns := c3zi.patterns ++ [c3p2] }
      ['/', 'p', '/', 'i', '.', 'l'] = !c3p2.is_negation :=
  ⟨C3_last_applicable_pattern_wins.1 c3zi ['/', 'p', '/', 'i', '.', 'l']
     (by decide) (by decide),
   C3_last_applicable_pattern_wins.2 c3zi ['/', 'p', '/', 'i', '.', 'l'] c3p2
     (by decide) (by decide) (by decide)⟩

/-! ## Claim C5 -/

def noSlashIn : List Char → Bool
  | [] => true
  | c :: rest => !(decide (c = '/')) && noSlashIn rest

def noBackslashIn : List Char → Bool
  | [] => true
  | c :: rest => !(decide (c = '\\')) && noBackslashIn rest

/-- A directory-entry name as readdir can produce it: nonempty and free of
the path separator; freedom from backslashes is the amendment's extra
hypothesis. -/
def goodNameB (n : List Char) : Bool :=
  decide (0 < n.length) && noSlashIn n && noBackslashIn n

/-- A name that moreover is not `.` or `..` (those two the walker skips). -/
def goodComp (n : List Char) : Bool :=
  goodNameB n && !(decide (n = ['.'])) && !(decide (n = ['.', '.']))

mutual

/-- Every name in the tree is a plausible readdir name without
backslashes. -/
def goodNode : fs_node_t → Bool
  | .file n _ _ => goodNameB n
  | .dir n ch => goodNameB n && goodForest ch

def goodForest : List fs_node_t → Bool
  | [] => true
  | n :: rest => goodNode n && goodForest rest

end

/- Every full on-disk path of the walk over the tree rooted at `dir_path`
stays within the PATH_MAX - 1 characters a file_info_t path buffer holds,
so neither strncpy (src/utils.c 396-397, src/zip.c 518-520) truncates. -/
mutual

def fitsNode (dir_path : List Char) : fs_node_t → Bool
  | .file n _ _ => decide ((join_path dir_path n).length ≤ PATH_MAX - 1)
  | .dir n ch =>
      decide ((join_path dir_path n).length ≤ PATH_MAX - 1) &&
        fitsForest (join_path dir_path n) ch

def fitsForest (dir_path : List Char) : List fs_node_t → Bool
  | [] => true
  | n :: rest => fitsNode dir_path n && fitsForest dir_path rest

end

def startsWithSlash (s : List Char) : Bool := decide (s.head? = some '/')

def hasDoubleSlash : List Char → Bool
  | [] => false
  | c :: rest =>
      (decide (c = '/') && decide (rest.head? = some '/')) || hasDoubleSlash rest

/-- The `/`-separated segments of a path (an empty path has one empty
segment, a trailing slash yields a final empty segment). -/
def splitSlash : List Char → List (List Char)
  | [] => [[]]
  | c :: rest =>
      if c = '/' then [] :: splitSlash rest
      else
        match splitSlash rest with
        | s0 :: ss => (c :: s0) :: ss
        | [] => [[c]]

def noDotDotSeg (s : List Char) : Bool :=
  (splitSlash s).all (fun seg => ¬ seg = ['.', '.'])

/-- The invariant of claim C5 on one archive path: no backslash, no `..`
segment, no leading slash, no `//`. -/
def archivePathOk (ap : List Char) : Bool :=
  noBackslashIn ap && noDotDotSeg ap && !(startsWithSlash ap) &&
    !(hasDoubleSlash ap)

/-- The slash-joined relative path of a component list. -/
def sepJoin : List (List Char) → List Char
  | [] => []
  | [c] => c
  | c :: rest => c ++ '/' :: sepJoin rest

/-- The on-disk path of the directory reached from `base` through the
readdir components `comps`, as join_path builds it step by step. -/
def pathUnder (base : List Char) (comps : List (List Char)) : List Char :=
  match comps with
  | [] => base
  | _ :: _ =>
      (if base.length = 0 ∨ base.getLast? = some '/' then base
       else base ++ ['/']) ++ sepJoin comps

theorem noSlashIn_cons {c : Char} {rest : List Char}
    (h : noSlashIn (c :: rest) = true) : ¬ c = '/' ∧ noSlashIn rest = true := by
  simpa [noSlashIn, Bool.and_eq_true] using h

theorem noBackslashIn_cons {c : Char} {rest : List Char}
    (h : noBackslashIn (c :: rest) = true) :
    ¬ c = '\\' ∧ noBackslashIn rest = true := by
  simpa [noBackslashIn, Bool.and_eq_true] using h

theorem splitSlash_ne_nil (s : List Char) : splitSlash s ≠ [] := by
  cases s with
  | nil => simp [splitSlash]
  | cons c rest =>
    unfold splitSlash
    by_cases h : c = '/'
    · simp [h]
    · simp only [h, if_neg, if_false]
      cases splitSlash rest <;> simp

theorem splitSlash_no_slash (s : List Char) (h : noSlashIn s = true) :
    splitSlash s = [s] := by
  induction s with
  | nil => rfl
  | cons c rest ih =>
    obtain ⟨hc, hrest⟩ := noSlashIn_cons h
    conv_lhs => rw [splitSlash]
    simp only [if_neg hc, ih hrest]

theorem splitSlash_append_sep (c t : List Char) (h : noSlashIn c = true) :
    splitSlash (c ++ '/' :: t) = c :: splitSlash t := by
  induction c with
  | nil => simp [splitSlash]
  | cons x xs ih =>
    obtain ⟨hx, hxs⟩ := noSlashIn_cons h
    simp only [List.cons_append]
    conv_lhs => rw [splitSlash]
    simp only [if_neg hx, ih hxs]

theorem splitSlash_append_trailing (s : List Char) :
    splitSlash (s ++ ['/']) = splitSlash s ++ [[]] := by
  induction s with
  | nil => rfl
  | cons c rest ih =>
    simp only [List.cons_append]
    by_cases h : c = '/'
    · conv_lhs => rw [splitSlash]
      conv_rhs => rw [splitSlash]
      simp [h, ih]
    · conv_lhs => rw [splitSlash]
      conv_rhs => rw [splitSlash]
      simp only [if_neg h]
      rw [ih]
      cases hrest : splitSlash rest with
      | nil => exact absurd hrest (splitSlash_ne_nil rest)
      | cons s0 ss => simp

theorem hasDoubleSlash_no_slash (s : List Char) (h : noSlashIn s = true) :
    hasDoubleSlash s = false := by
  induction s with
  | nil => rfl
  | cons c rest ih =>
    obtain ⟨hc, hrest⟩ := noSlashIn_cons h
    simp [hasDoubleSlash, hc, ih hrest]

theorem hasDoubleSlash_append_sep (c t : List Char) (hc : noSlashIn c = true)
    (ht : ¬ t.head? = some '/') (hdt : hasDoubleSlash t = false) :
    hasDoubleSlash (c ++ '/' :: t) = false := by
  induction c with
  | nil =>
    simp only [List.nil_append]
    simp [hasDoubleSlash, ht, hdt]
  | cons x xs ih =>
    obtain ⟨hx, hxs⟩ := noSlashIn_cons hc
    simp [hasDoubleSlash, hx, ih hxs]

theorem hasDoubleSlash_snoc_sep (s : List Char)
    (h : ¬ s.getLast? = some '/') (hds : hasDoubleSlash s = false) :
    hasDoubleSlash (s ++ ['/']) = false := by
  induction s with
  | nil => simp [hasDoubleSlash]
  | cons c rest ih =>
    simp only [List.cons_append, hasDoubleSlash, Bool.or_eq_false_iff] at hds ⊢
    constructor
    · cases rest with
      | nil =>
        have hc : ¬ c = '/' := by
          intro hcc
          exact h (by simp [hcc])
        simp [hc]
      | cons d ds => simpa using hds.1
    · cases rest with
      | nil => simp [hasDoubleSlash]
      | cons d ds =>
        refine ih ?_ hds.2
        simpa [List.getLast?_cons_cons] using h

theorem noSlashIn_mem {s : List Char} (h : noSlashIn s = true) :
    ∀ x ∈ s, ¬ x = '/' := by
  induction s with
  | nil => intro x hx; cases hx
  | cons c rest ih =>
    obtain ⟨hc, hrest⟩ := noSlashIn_cons h
    intro x hx
    rcases List.mem_cons.mp hx with hx | hx
    · exact hx ▸ hc
    · exact ih hrest x hx

theorem head?_not_slash {s : List Char} (h : noSlashIn s = true) :
    ¬ s.head? = some '/' := by
  cases s with
  | nil => simp
  | cons c rest =>
    obtain ⟨hc, _⟩ := noSlashIn_cons h
    simpa using hc

theorem getLast?_not_slash {s : List Char} (h : noSlashIn s = true) :
    ¬ s.getLast? = some '/' := by
  intro heq
  cases hs : s with
  | nil => rw [hs] at heq; simp at heq
  | cons c rest =>
    have hne : s ≠ [] := by rw [hs]; simp
    rw [List.getLast?_eq_getLast_of_ne_nil hne] at heq
    have hmem := List.getLast_mem hne
    have := noSlashIn_mem h _ hmem
    simp at heq
    exact this heq

theorem noBackslashIn_append {s t : List Char} (hs : noBackslashIn s = true)
    (ht : noBackslashIn t = true) : noBackslashIn (s ++ t) = true := by
  induction s with
  | nil => exact ht
  | cons c rest ih =>
    obtain ⟨hc, hrest⟩ := noBackslashIn_cons hs
    simp only [List.cons_append, noBackslashIn, Bool.and_eq_true]
    exact ⟨by simpa using hc, ih hrest⟩

theorem goodComp_parts {n : List Char} (h : goodComp n = true) :
    n ≠ [] ∧ noSlashIn n = true ∧ noBackslashIn n = true ∧
      ¬ n = ['.'] ∧ ¬ n = ['.', '.'] := by
  have h' := h
  simp only [goodComp, goodNameB, Bool.and_eq_true, Bool.not_eq_true',
    decide_eq_false_iff_not, decide_eq_true_eq] at h'
  obtain ⟨⟨⟨⟨hlen, hslash⟩, hback⟩, hdot⟩, hdotdot⟩ := h'
  refine ⟨?_, hslash, hback, hdot, hdotdot⟩
  intro hn
  rw [hn] at hlen
  simp at hlen

/-- The structural facts about the slash-join of a nonempty list of good
components: nonempty, no leading or trailing slash, no `//`, no backslash,
and splitSlash recovers the components. -/
theorem sepJoin_facts :
    ∀ (comps : List (List Char)), comps ≠ [] →
      comps.all goodComp = true →
      sepJoin comps ≠ [] ∧
      ¬ (sepJoin comps).head? = some '/' ∧
      ¬ (sepJoin comps).getLast? = some '/' ∧
      hasDoubleSlash (sepJoin comps) = false ∧
      noBackslashIn (sepJoin comps) = true ∧
      splitSlash (sepJoin comps) = comps := by
  intro comps
  induction comps with
  | nil => intro h; exact absurd rfl h
  | cons c rest ih =>
    intro _ hall
    have hc : goodComp c = true := by
      simp only [List.all_cons, Bool.and_eq_true] at hall
      exact hall.1
    have hrest : rest.all goodComp = true := by
      simp only [List.all_cons, Bool.and_eq_true] at hall
      exact hall.2
    obtain ⟨hcne, hcs, hcb, _, _⟩ := goodComp_parts hc
    cases rest with
    | nil =>
      refine ⟨hcne, head?_not_slash hcs, getLast?_not_slash hcs,
        hasDoubleSlash_no_slash c hcs, hcb, ?_⟩
      simpa [sepJoin] using splitSlash_no_slash c hcs
    | cons d rest2 =>
      obtain ⟨hu1, hu2, hu3, hu4, hu5, hu6⟩ :=
        ih (by simp) hrest
      have hsj : sepJoin (c :: d :: rest2) = c ++ '/' :: sepJoin (d :: rest2) :=
        rfl
      rw [hsj]
      refine ⟨by simp [hcne], ?_, ?_, ?_, ?_, ?_⟩
      · cases hcc : c with
        | nil => exact absurd hcc hcne
        | cons x xs =>
          have := noSlashIn_mem hcs x (by rw [hcc]; simp)
          simpa using this
      · rw [List.getLast?_append_of_ne_nil _ (by simp)]
        cases hu : sepJoin (d :: rest2) with
        | nil => exact absurd hu hu1
        | cons v vs =>
          rw [List.getLast?_cons_cons]
          rw [hu] at hu3
          exact hu3
      · exact hasDoubleSlash_append_sep c _ hcs hu2 hu4
      · refine noBackslashIn_append hcb ?_
        simp only [noBackslashIn, Bool.and_eq_true]
        exact ⟨by simp, hu5⟩
      · rw [splitSlash_append_sep c _ hcs, hu6]

theorem map_backslash_id {s : List Char} (h : noBackslashIn s = true) :
    s.map (fun ch => if ch = '\\' then '/' else ch) = s := by
  induction s with
  | nil => rfl
  | cons c rest ih =>
    obtain ⟨hc, hrest⟩ := noBackslashIn_cons h
    simp [hc, ih hrest]

theorem sepJoin_snoc (n : List Char) :
    ∀ (comps : List (List Char)), comps ≠ [] →
      sepJoin (comps ++ [n]) = sepJoin comps ++ '/' :: n := by
  intro comps
  induction comps with
  | nil => intro h; exact absurd rfl h
  | cons c rest ih =>
    intro _
    cases rest with
    | nil => rfl
    | cons d rest2 =>
      have h1 : sepJoin ((c :: d :: rest2) ++ [n]) =
          c ++ '/' :: sepJoin ((d :: rest2) ++ [n]) := rfl
      have h2 : sepJoin (c :: d :: rest2) = c ++ '/' :: sepJoin (d :: rest2) :=
        rfl
      rw [h1, ih (by simp), h2]
      simp

theorem pathUnder_snoc (base : List Char) (comps : List (List Char))
    (n : List Char) (hall : comps.all goodComp = true) :
    join_path (pathUnder base comps) n = pathUnder base (comps ++ [n]) := by
  have hjp : ∀ (d f : List Char), join_path d f =
      if 0 < d.length ∧ ¬ d.getLast? = some '/' then d ++ '/' :: f
      else d ++ f := fun d f => rfl
  cases comps with
  | nil =>
    have hnil : pathUnder base [] = base := rfl
    have hone : pathUnder base [n] =
        (if base.length = 0 ∨ base.getLast? = some '/' then base
         else base ++ ['/']) ++ n := rfl
    rw [List.nil_append, hnil, hone, hjp]
    by_cases hb : base.length = 0 ∨ base.getLast? = some '/'
    · have hcond : ¬ (0 < base.length ∧ ¬ base.getLast? = some '/') := by
        rcases hb with hb | hb
        · intro hk; omega
        · intro hk; exact hk.2 hb
      rw [if_neg hcond, if_pos hb]
    · have hcond : 0 < base.length ∧ ¬ base.getLast? = some '/' := by
        rcases Nat.eq_zero_or_pos base.length with h0 | h0
        · exact absurd (Or.inl h0) hb
        · exact ⟨h0, fun hk => hb (Or.inr hk)⟩
      rw [if_pos hcond, if_neg hb]
      simp
  | cons c cs =>
    have hall' : (c :: cs).all goodComp = true := hall
    obtain ⟨hu1, hu2, hu3, hu4, hu5, hu6⟩ :=
      sepJoin_facts (c :: cs) (by simp) hall'
    have hq : pathUnder base (c :: cs) =
        (if base.length = 0 ∨ base.getLast? = some '/' then base
         else base ++ ['/']) ++ sepJoin (c :: cs) := rfl
    have hqne : pathUnder base (c :: cs) ≠ [] := by
      rw [hq]
      simp [hu1]
    have hqlast : ¬ (pathUnder base (c :: cs)).getLast? = some '/' := by
      rw [hq, List.getLast?_append_of_ne_nil _ hu1]
      exact hu3
    have hcond : 0 < (pathUnder base (c :: cs)).length ∧
        ¬ (pathUnder base (c :: cs)).getLast? = some '/' := by
      constructor
      · cases hp : pathUnder base (c :: cs) with
        | nil => exact absurd hp hqne
        | cons a b => simp
      · exact hqlast
    rw [hjp, if_pos hcond]
    have h2 : pathUnder base ((c :: cs) ++ [n]) =
        (if base.length = 0 ∨ base.getLast? = some '/' then base
         else base ++ ['/']) ++ sepJoin ((c :: cs) ++ [n]) := by
      cases cs <;> rfl
    rw [h2, sepJoin_snoc n (c :: cs) (by simp), hq, List.append_assoc]

theorem make_archive_path_pathUnder (base : List Char)
    (comps : List (List Char)) (hne : comps ≠ [])
    (hall : comps.all goodComp = true)
    (hfit : (pathUnder base comps).length ≤ PATH_MAX - 1) :
    make_archive_path base (pathUnder base comps) false = sepJoin comps ∧
    make_archive_path base (pathUnder base comps) true =
      sepJoin comps ++ ['/'] := by
  obtain ⟨hu1, hu2, hu3, hu4, hu5, hu6⟩ := sepJoin_facts comps hne hall
  have hsfit : (sepJoin comps).length ≤ PATH_MAX - 1 := by
    refine le_trans ?_ hfit
    cases comps with
    | nil => exact absurd rfl hne
    | cons c cs =>
      have h : pathUnder base (c :: cs) =
          (if base.length = 0 ∨ base.getLast? = some '/' then base
           else base ++ ['/']) ++ sepJoin (c :: cs) := rfl
      rw [h, List.length_append]
      exact Nat.le_add_left _ _
  have htake : (sepJoin comps).take (PATH_MAX - 1) = sepJoin comps :=
    List.take_of_length_le hsfit
  have hrel :
      (if base = (pathUnder base comps).take base.length then
        let r := (pathUnder base comps).drop base.length
        if r.head? = some '/' then r.tail else r
      else pathUnder base comps) = sepJoin comps := by
    by_cases hb : base.length = 0 ∨ base.getLast? = some '/'
    · have hq : pathUnder base comps = base ++ sepJoin comps := by
        cases comps with
        | nil => exact absurd rfl hne
        | cons c cs =>
          have : pathUnder base (c :: cs) =
              (if base.length = 0 ∨ base.getLast? = some '/' then base
               else base ++ ['/']) ++ sepJoin (c :: cs) := rfl
          rw [this, if_pos hb]
      rw [hq, List.take_left, List.drop_left]
      simp [hu2]
    · have hq : pathUnder base comps = base ++ '/' :: sepJoin comps := by
        cases comps with
        | nil => exact absurd rfl hne
        | cons c cs =>
          have : pathUnder base (c :: cs) =
              (if base.length = 0 ∨ base.getLast? = some '/' then base
               else base ++ ['/']) ++ sepJoin (c :: cs) := rfl
          rw [this, if_neg hb]
          simp
      rw [hq, List.take_left, List.drop_left]
      simp
  constructor
  · simp only [make_archive_path, hrel, htake, map_backslash_id hu5]
    simp
  · simp only [make_archive_path, hrel, htake, map_backslash_id hu5]
    have hcond : True ∧ 0 < (sepJoin comps).length ∧
        ¬ (sepJoin comps).getLast? = some '/' := by
      refine ⟨trivial, ?_, hu3⟩
      cases hu : sepJoin comps with
      | nil => exact absurd hu hu1
      | cons a b => simp
    simp [hcond.2.1, hu3]

theorem goodForest_cons {n : fs_node_t} {rest : List fs_node_t}
    (h : goodForest (n :: rest) = true) :
    goodNode n = true ∧ goodForest rest = true := by
  simpa [goodForest, Bool.and_eq_true] using h

theorem goodNode_dir {name : List Char} {ch : List fs_node_t}
    (h : goodNode (.dir name ch) = true) :
    goodNameB name = true ∧ goodForest ch = true := by
  simpa [goodNode, Bool.and_eq_true] using h

theorem goodComp_of (n : List Char) (h1 : goodNameB n = true)
    (h2 : ¬ (n = ['.'] ∨ n = ['.', '.'])) : goodComp n = true := by
  push_neg at h2
  simp [goodComp, h1, h2.1, h2.2]

theorem archivePathOk_sepJoin (comps : List (List Char)) (hne : comps ≠ [])
    (hall : comps.all goodComp = true) :
    archivePathOk (sepJoin comps) = true ∧
    archivePathOk (sepJoin comps ++ ['/']) = true := by
  obtain ⟨hu1, hu2, hu3, hu4, hu5, hu6⟩ := sepJoin_facts comps hne hall
  have hsegs : ∀ seg ∈ comps, ¬ seg = ['.', '.'] := by
    intro seg hseg
    exact (goodComp_parts (List.all_eq_true.mp hall seg hseg)).2.2.2.2
  have hdd : noDotDotSeg (sepJoin comps) = true := by
    unfold noDotDotSeg
    rw [hu6, List.all_eq_true]
    intro seg hseg
    simpa using hsegs seg hseg
  have hdd2 : noDotDotSeg (sepJoin comps ++ ['/']) = true := by
    unfold noDotDotSeg
    rw [splitSlash_append_trailing, hu6, List.all_eq_true]
    intro seg hseg
    rcases List.mem_append.mp hseg with h | h
    · simpa using hsegs seg h
    · simp only [List.mem_singleton] at h
      simp [h]
  have hsw : startsWithSlash (sepJoin comps) = false := by
    simp [startsWithSlash, hu2]
  have hsw2 : startsWithSlash (sepJoin comps ++ ['/']) = false := by
    cases hu : sepJoin comps with
    | nil => exact absurd hu hu1
    | cons v vs =>
      rw [hu] at hu2
      simp only [List.cons_append, startsWithSlash, List.head?_cons]
      simpa using fun hv => hu2 (by simp [hv])
  have hds2 : hasDoubleSlash (sepJoin comps ++ ['/']) = false :=
    hasDoubleSlash_snoc_sep _ hu3 hu4
  have hbs2 : noBackslashIn (sepJoin comps ++ ['/']) = true :=
    noBackslashIn_append hu5 (by simp [noBackslashIn])
  constructor
  · simp [archivePathOk, hu5, hdd, hsw, hu4]
  · simp [archivePathOk, hbs2, hdd2, hsw2, hds2]

theorem fitsForest_cons {d : List Char} {n : fs_node_t}
    {rest : List fs_node_t} (h : fitsForest d (n :: rest) = true) :
    fitsNode d n = true ∧ fitsForest d rest = true := by
  simpa [fitsForest, Bool.and_eq_true] using h

theorem fitsNode_file {d name : List Char} {mtime size : Int}
    (h : fitsNode d (.file name mtime size) = true) :
    (join_path d name).length ≤ PATH_MAX - 1 := by
  simpa [fitsNode, decide_eq_true_eq] using h

theorem fitsNode_dir {d name : List Char} {ch : List fs_node_t}
    (h : fitsNode d (.dir name ch) = true) :
    (join_path d name).length ≤ PATH_MAX - 1 ∧
      fitsForest (join_path d name) ch = true := by
  have h' := h
  simp only [fitsNode, Bool.and_eq_true, decide_eq_true_eq] at h'
  exact h'

mutual

theorem collectNode_paths_ok (ign : List Char → Bool) (base : List Char)
    (comps : List (List Char)) (n : fs_node_t) :
    comps.all goodComp = true → goodNode n = true →
    fitsNode (pathUnder base comps) n = true →
    ∀ fe ∈ collectNode ign base (pathUnder base comps) n,
      archivePathOk fe.archive_path = true := by
  intro hall hn hfits fe hfe
  cases n with
  | file name mtime size =>
    by_cases hskip : name = ['.'] ∨ name = ['.', '.']
    · simp [collectNode, hskip] at hfe
    · have hgc : goodComp name = true := goodComp_of name (by simpa [goodNode] using hn) hskip
      have hall' : (comps ++ [name]).all goodComp = true := by
        simp [List.all_append, hall, hgc]
      have hlen : (join_path (pathUnder base comps) name).length ≤
          PATH_MAX - 1 := fitsNode_file hfits
      have htk : (join_path (pathUnder base comps) name).take (PATH_MAX - 1)
          = join_path (pathUnder base comps) name :=
        List.take_of_length_le hlen
      have hfit' : (pathUnder base (comps ++ [name])).length ≤
          PATH_MAX - 1 := by
        rw [← pathUnder_snoc base comps name hall]
        exact hlen
      simp only [collectNode, if_neg hskip] at hfe
      rw [htk] at hfe
      by_cases hign : ign (join_path (pathUnder base comps) name) = true
      · simp [hign] at hfe
      · have hign' : ign (join_path (pathUnder base comps) name) = false := by
          cases hx : ign (join_path (pathUnder base comps) name)
          · rfl
          · exact absurd hx hign
        simp only [hign', Bool.false_eq_true, if_neg, if_false,
          List.mem_singleton] at hfe
        rw [hfe]
        simp only [pathUnder_snoc base comps name hall]
        rw [(make_archive_path_pathUnder base (comps ++ [name]) (by simp)
          hall' hfit').1]
        exact (archivePathOk_sepJoin (comps ++ [name]) (by simp) hall').1
  | dir name children =>
    by_cases hskip : name = ['.'] ∨ name = ['.', '.']
    · simp [collectNode, hskip] at hfe
    · obtain ⟨hname, hch⟩ := goodNode_dir hn
      obtain ⟨hlen, hchfit⟩ := fitsNode_dir hfits
      have hgc : goodComp name = true := goodComp_of name hname hskip
      have hall' : (comps ++ [name]).all goodComp = true := by
        simp [List.all_append, hall, hgc]
      have htk : (join_path (pathUnder base comps) name).take (PATH_MAX - 1)
          = join_path (pathUnder base comps) name :=
        List.take_of_length_le hlen
      have hfit' : (pathUnder base (comps ++ [name])).length ≤
          PATH_MAX - 1 := by
        rw [← pathUnder_snoc base comps name hall]
        exact hlen
      have hchfit' : fitsForest (pathUnder base (comps ++ [name]))
          children = true := by
        rw [← pathUnder_snoc base comps name hall]
        exact hchfit
      simp only [collectNode, if_neg hskip] at hfe
      rw [htk] at hfe
      rw [pathUnder_snoc base comps name hall] at hfe
      rcases List.mem_append.mp hfe with h | h
      · by_cases hign : ign (pathUnder base (comps ++ [name])) = true
        · simp [hign] at h
        · have hign' : ign (pathUnder base (comps ++ [name])) = false := by
            cases hx : ign (pathUnder base (comps ++ [name]))
            · rfl
            · exact absurd hx hign
          simp only [hign', Bool.false_eq_true, if_neg, if_false,
            List.mem_singleton] at h
          rw [h]
          rw [(make_archive_path_pathUnder base (comps ++ [name]) (by simp)
            hall' hfit').2]
          exact (archivePathOk_sepJoin (comps ++ [name]) (by simp) hall').2
      · exact collectList_paths_ok ign base (comps ++ [name]) children hall'
          hch hchfit' fe h

theorem collectList_paths_ok (ign : List Char → Bool) (base : List Char)
    (comps : List (List Char)) (nodes : List fs_node_t) :
    comps.all goodComp = true → goodForest nodes = true →
    fitsForest (pathUnder base comps) nodes = true →
    ∀ fe ∈ collectList ign base (pathUnder base comps) nodes,
      archivePathOk fe.archive_path = true := by
  intro hall hf hfits fe hfe
  cases nodes with
  | nil => simp [collectList] at hfe
  | cons n rest =>
    obtain ⟨hn, hrest⟩ := goodForest_cons hf
    obtain ⟨hfn, hfrest⟩ := fitsForest_cons hfits
    simp only [collectList] at hfe
    rcases List.mem_append.mp hfe with h | h
    · exact collectNode_paths_ok ign base comps n hall hn hfn fe h
    · exact collectList_paths_ok ign base comps rest hall hrest hfrest fe h

end

/-- C5 amended: over a collection root equal to the base directory — how
create_zip starts the walk for a directory input — a tree whose readdir
names are free of backslashes, and full on-disk paths all within
PATH_MAX - 1 characters (so the strncpy truncations at src/utils.c 396-397
and src/zip.c 518-520 are the identity), every emitted FileEntry has an
archive_path with no backslash, no `..` segment, no leading `/` and no
`//`.  (Without the backslash hypothesis the invariant fails, see the
counterexample: backslashes in names are rewritten to forward slashes;
without the length hypothesis a truncation can cut a path mid-component
and leave a trailing `..` segment.) -/
theorem C5_archive_paths_well_formed (ign : List Char → Bool)
    (base : List Char) (tree : List fs_node_t)
    (htree : goodForest tree = true)
    (hfits : fitsForest base tree = true) :
    ∀ fe ∈ collect_files ign base tree, archivePathOk fe.archive_path = true := by
  intro fe hfe
  exact collectList_paths_ok ign base [] tree rfl htree hfits fe hfe

/-- C5 counterexample: a regular file whose (POSIX-legal) name is `\a`
collects to the archive path `/a` — the backslash is rewritten to a forward
slash — so the emitted archive_path starts with `/`, refuting the claim as
stated for arbitrary trees. -/
theorem C5_counterexample_backslash_name_gives_leading_slash :
    (collect_files (fun _ => false) ['b']
        [.file ['\\', 'a'] 0 0]).map (fun fe => fe.archive_path) =
      [['/', 'a']] ∧
    startsWithSlash ['/', 'a'] = true := by
  refine ⟨by decide, by decide⟩

def c5tree : List fs_node_t := [.file ['f'] 1 2, .dir ['d'] [.file ['g'] 3 4]]

def c5fe : file_entry_t :=
  { file_path := ['b', '/', 'f'], archive_path := ['f'], size := 2,
    mtime := 1, is_directory := false }

theorem C5_archive_paths_well_formed_witness :
    archivePathOk c5fe.archive_path = true :=
  C5_archive_paths_well_formed (fun _ => false) ['b'] c5tree (by decide)
    (by decide) c5fe (by decide)

/-! ## Claims C1 and C4 -/

/-- The marking compare_with_existing_zip applies to a matched collected
file (src/diff.c 182). -/
def setNone (c : file_change_t) : file_change_t :=
  { c with change_type := CHANGE_NONE }

theorem mark_found_none (name : List Char) :
    ∀ (cur : List file_change_t), (∀ c ∈ cur, ¬ c.path = name) →
      mark_found name cur = (none, cur) := by
  intro cur
  induction cur with
  | nil => intro _; rfl
  | cons c cs ih =>
    intro h
    have hc : ¬ c.path = name := h c (by simp)
    simp [mark_found, hc, ih (fun x hx => h x (by simp [hx]))]

theorem mark_found_map_path (name : List Char) :
    ∀ (cur : List file_change_t),
      ((mark_found name cur).2).map (fun x => x.path) =
        cur.map (fun x => x.path) := by
  intro cur
  induction cur with
  | nil => rfl
  | cons c cs ih =>
    by_cases hc : c.path = name
    · simp [mark_found, hc, setNone]
    · simp [mark_found, hc, ih]

theorem mark_found_mem_of_ne (name : List Char) :
    ∀ (cur : List file_change_t) (x : file_change_t), x ∈ cur →
      ¬ x.path = name → x ∈ (mark_found name cur).2 := by
  intro cur
  induction cur with
  | nil => intro x hx; cases hx
  | cons c cs ih =>
    intro x hx hxn
    by_cases hc : c.path = name
    · simp only [mark_found, if_pos hc]
      rcases List.mem_cons.mp hx with rfl | hx2
      · exact absurd hc hxn
      · simp [hx2]
    · simp only [mark_found, if_neg hc]
      rcases List.mem_cons.mp hx with rfl | hx2
      · simp
      · simp [ih x hx2 hxn]

theorem mark_found_mem_src (name : List Char) :
    ∀ (cur : List file_change_t) (x : file_change_t),
      x ∈ (mark_found name cur).2 →
      x ∈ cur ∨ ∃ y ∈ cur, y.path = name ∧ x = setNone y := by
  intro cur
  induction cur with
  | nil => intro x hx; simp [mark_found] at hx
  | cons c cs ih =>
    intro x hx
    by_cases hc : c.path = name
    · simp only [mark_found, if_pos hc, List.mem_cons] at hx
      rcases hx with rfl | hx2
      · exact Or.inr ⟨c, by simp, hc, rfl⟩
      · exact Or.inl (by simp [hx2])
    · simp only [mark_found, if_neg hc, List.mem_cons] at hx
      rcases hx with rfl | hx2
      · exact Or.inl (by simp)
      · rcases ih x hx2 with h | ⟨y, hy, hyn, hxy⟩
        · exact Or.inl (by simp [h])
        · exact Or.inr ⟨y, by simp [hy], hyn, hxy⟩

theorem mark_found_found (name : List Char) :
    ∀ (cur : List file_change_t) (c : file_change_t),
      (cur.map (fun x => x.path)).Nodup → c ∈ cur → c.path = name →
      (mark_found name cur).1 = some c ∧
      (∀ x ∈ (mark_found name cur).2, x.path = name → x = setNone c) := by
  intro cur
  induction cur with
  | nil => intro c _ hc; cases hc
  | cons d ds ih =>
    intro c hN hc hcp
    have hN' : (∀ x ∈ ds, ¬ x.path = d.path) ∧
        (ds.map (fun x => x.path)).Nodup := by simpa using hN
    by_cases hd : d.path = name
    · have hcd : c = d := by
        rcases List.mem_cons.mp hc with rfl | hc2
        · rfl
        · exact absurd (hcp.trans hd.symm) (hN'.1 c hc2)
      subst hcd
      constructor
      · simp [mark_found, hd]
      · intro x hx hxp
        simp only [mark_found, if_pos hd, List.mem_cons] at hx
        rcases hx with rfl | hx2
        · rfl
        · exact absurd (hxp.trans hd.symm) (hN'.1 x hx2)
    · have hc2 : c ∈ ds := by
        rcases List.mem_cons.mp hc with rfl | hc2
        · exact absurd hcp hd
        · exact hc2
      obtain ⟨ih1, ih2⟩ := ih c hN'.2 hc2 hcp
      simp only [mark_found, if_neg hd]
      refine ⟨ih1, ?_⟩
      intro x hx hxp
      rcases List.mem_cons.mp hx with rfl | hx2
      · exact absurd hxp hd
      · exact ih2 x hx2 hxp

theorem zipPass_changes_from (zi : zipignore_t) (dir : List Char) :
    ∀ (es : List zip_entry_t) (cur : List file_change_t)
      (ch : file_change_t), ch ∈ (zipPass zi dir es cur).2 →
      ∃ e ∈ es, e.is_directory = false ∧
        should_ignore zi (fullDiskPath dir e.name) = false ∧
        ch.path = e.name := by
  intro es
  induction es with
  | nil => intro cur ch h; simp [zipPass] at h
  | cons e es' ih =>
    intro cur ch h
    by_cases hdir : e.is_directory = true
    · simp only [zipPass, hdir, if_pos] at h
      obtain ⟨e2, he2, hrest⟩ := ih cur ch h
      exact ⟨e2, by simp [he2], hrest⟩
    · have hdir' : e.is_directory = false := by
        cases hx : e.is_directory
        · rfl
        · exact absurd hx hdir
      by_cases hign : should_ignore zi (fullDiskPath dir e.name) = true
      · simp only [zipPass, hdir', Bool.false_eq_true, if_neg, if_false,
          hign, if_pos] at h
        obtain ⟨e2, he2, hrest⟩ := ih cur ch h
        exact ⟨e2, by simp [he2], hrest⟩
      · have hign' : should_ignore zi (fullDiskPath dir e.name) = false := by
          cases hx : should_ignore zi (fullDiskPath dir e.name)
          · rfl
          · exact absurd hx hign
        cases hmf : mark_found e.name cur with
        | mk o cur1 =>
          cases o with
          | some cc =>
            simp only [zipPass, hdir', hign', Bool.false_eq_true, if_neg,
              if_false, hmf] at h
            by_cases hcond : e.mtime < cc.new_mtime ∨ ¬ cc.new_size = e.size
            · rw [if_pos hcond] at h
              rcases List.mem_cons.mp h with rfl | h2
              · exact ⟨e, by simp, hdir', hign', rfl⟩
              · obtain ⟨e2, he2, hrest⟩ := ih cur1 ch h2
                exact ⟨e2, by simp [he2], hrest⟩
            · rw [if_neg hcond] at h
              obtain ⟨e2, he2, hrest⟩ := ih cur1 ch h
              exact ⟨e2, by simp [he2], hrest⟩
          | none =>
            simp only [zipPass, hdir', hign', Bool.false_eq_true, if_neg,
              if_false, hmf] at h
            rcases List.mem_cons.mp h with rfl | h2
            · exact ⟨e, by simp, hdir', hign', rfl⟩
            · obtain ⟨e2, he2, hrest⟩ := ih cur1 ch h2
              exact ⟨e2, by simp [he2], hrest⟩

theorem zipPass_deleted_mem (zi : zipignore_t) (dir : List Char)
    (e : zip_entry_t) :
    ∀ (es : List zip_entry_t) (cur : List file_change_t), e ∈ es →
      e.is_directory = false →
      should_ignore zi (fullDiskPath dir e.name) = false →
      (∀ c ∈ cur, ¬ c.path = e.name) →
      mkDeleted e ∈ (zipPass zi dir es cur).2 := by
  intro es
  induction es with
  | nil => intro cur he; cases he
  | cons e' es' ih =>
    intro cur he hdir hign hcur
    have hcur_any : ∀ (cur2 : List file_change_t),
        cur2.map (fun x => x.path) = cur.map (fun x => x.path) →
        ∀ c ∈ cur2, ¬ c.path = e.name := by
      intro cur2 hmap c hc hcp
      have : c.path ∈ cur2.map (fun x => x.path) := List.mem_map_of_mem _ hc
      rw [hmap] at this
      obtain ⟨y, hy, hyp⟩ := List.mem_map.mp this
      exact hcur y hy (hyp.trans hcp)
    rcases List.mem_cons.mp he with rfl | he2
    · simp only [zipPass, hdir, Bool.false_eq_true, if_neg, if_false, hign,
        mark_found_none e.name cur hcur]
      simp
    · by_cases hdir1 : e'.is_directory = true
      · simp only [zipPass, hdir1, if_pos]
        exact ih cur he2 hdir hign hcur
      · have hdir1' : e'.is_directory = false := by
          cases hx : e'.is_directory
          · rfl
          · exact absurd hx hdir1
        by_cases hign1 : should_ignore zi (fullDiskPath dir e'.name) = true
        · simp only [zipPass, hdir1', Bool.false_eq_true, if_neg, if_false,
            hign1, if_pos]
          exact ih cur he2 hdir hign hcur
        · have hign1' : should_ignore zi (fullDiskPath dir e'.name) = false := by
            cases hx : should_ignore zi (fullDiskPath dir e'.name)
            · rfl
            · exact absurd hx hign1
          cases hmf : mark_found e'.name cur with
          | mk o cur1 =>
            have hcur1 : ∀ c ∈ cur1, ¬ c.path = e.name := by
              refine hcur_any cur1 ?_
              have := mark_found_map_path e'.name cur
              rw [hmf] at this
              exact this
            cases o with
            | some cc =>
              simp only [zipPass, hdir1', hign1', Bool.false_eq_true, if_neg,
                if_false, hmf]
              by_cases hcond : e'.mtime < cc.new_mtime ∨ ¬ cc.new_size = e'.size
              · rw [if_pos hcond]
                exact List.mem_cons_of_mem _ (ih cur1 he2 hdir hign hcur1)
              · rw [if_neg hcond]
                exact ih cur1 he2 hdir hign hcur1
            | none =>
              simp only [zipPass, hdir1', hign1', Bool.false_eq_true, if_neg,
                if_false, hmf]
              exact List.mem_cons_of_mem _ (ih cur1 he2 hdir hign hcur1)

theorem zipPass_stable (zi : zipignore_t) (dir : List Char) (n : List Char)
    (v : file_change_t) :
    ∀ (es : List zip_entry_t) (cur : List file_change_t),
      ¬ n ∈ es.map (fun x => x.name) →
      (∀ x ∈ cur, x.path = n → x = v) →
      (∀ x ∈ (zipPass zi dir es cur).1, x.path = n → x = v) := by
  intro es
  induction es with
  | nil => intro cur _ hcur; simpa [zipPass] using hcur
  | cons e' es' ih =>
    intro cur hnot hcur
    have hnot' : ¬ n ∈ es'.map (fun x => x.name) := by
      intro hmem; exact hnot (by simp [hmem])
    have hne : ¬ e'.name = n := by
      intro hh; exact hnot (by simp [hh])
    by_cases hdir1 : e'.is_directory = true
    · simp only [zipPass, hdir1, if_pos]
      exact ih cur hnot' hcur
    · have hdir1' : e'.is_directory = false := by
        cases hx : e'.is_directory
        · rfl
        · exact absurd hx hdir1
      by_cases hign1 : should_ignore zi (fullDiskPath dir e'.name) = true
      · simp only [zipPass, hdir1', Bool.false_eq_true, if_neg, if_false,
          hign1, if_pos]
        exact ih cur hnot' hcur
      · have hign1' : should_ignore zi (fullDiskPath dir e'.name) = false := by
          cases hx : should_ignore zi (fullDiskPath dir e'.name)
          · rfl
          · exact absurd hx hign1
        cases hmf : mark_found e'.name cur with
        | mk o cur1 =>
          have hcur1 : ∀ x ∈ cur1, x.path = n → x = v := by
            intro x hx hxp
            have hsrc := mark_found_mem_src e'.name cur x
              (by rw [hmf]; exact hx)
            rcases hsrc with h | ⟨y, hy, hyn, hxy⟩
            · exact hcur x h hxp
            · exfalso
              have hxyp : x.path = y.path := by rw [hxy]; rfl
              rw [hxp] at hxyp
              exact hne (hyn ▸ hxyp.symm ▸ rfl)
          cases o with
          | some cc =>
            simp only [zipPass, hdir1', hign1', Bool.false_eq_true, if_neg,
              if_false, hmf]
            by_cases hcond : e'.mtime < cc.new_mtime ∨ ¬ cc.new_size = e'.size
            · rw [if_pos hcond]
              exact ih cur1 hnot' hcur1
            · rw [if_neg hcond]
              exact ih cur1 hnot' hcur1
          | none =>
            simp only [zipPass, hdir1', hign1', Bool.false_eq_true, if_neg,
              if_false, hmf]
            exact ih cur1 hnot' hcur1

theorem zipPass_modified_filter (zi : zipignore_t) (dir : List Char)
    (e : zip_entry_t) (c : file_change_t) :
    ∀ (es : List zip_entry_t) (cur : List file_change_t),
      (es.map (fun x => x.name)).Nodup →
      (cur.map (fun x => x.path)).Nodup →
      e ∈ es → e.is_directory = false →
      should_ignore zi (fullDiskPath dir e.name) = false →
      c ∈ cur → c.path = e.name →
      ((zipPass zi dir es cur).2.filter (fun ch => ch.path = e.name) =
        (if e.mtime < c.new_mtime ∨ ¬ c.new_size = e.size
         then [mkModified e c] else [])) ∧
      (∀ x ∈ (zipPass zi dir es cur).1, x.path = e.name → x = setNone c) := by
  intro es
  induction es with
  | nil => intro cur _ _ he; cases he
  | cons e' es' ih =>
    intro cur hE hC he hdir hign hc hcp
    have hE2 : ¬ e'.name ∈ es'.map (fun x => x.name) ∧
        (es'.map (fun x => x.name)).Nodup := by simpa using hE
    rcases List.mem_cons.mp he with rfl | he2
    · -- the entry at the head is e itself
      have hnotin : ¬ e.name ∈ es'.map (fun x => x.name) := hE2.1
      cases hmf : mark_found e.name cur with
      | mk o cur1 =>
        have hfound := mark_found_found e.name cur c hC hc hcp
        have ho : o = some c := by
          have h1 := hfound.1
          rw [hmf] at h1
          simpa using h1
        subst ho
        have hm2 : ∀ x ∈ cur1, x.path = e.name → x = setNone c := by
          intro x hx
          exact hfound.2 x (by rw [hmf]; exact hx)
        have hrest_nil :
            ((zipPass zi dir es' cur1).2).filter
              (fun ch => ch.path = e.name) = [] := by
          rw [List.filter_eq_nil_iff]
          intro ch hch
          obtain ⟨e2, he2, _, _, hpath⟩ :=
            zipPass_changes_from zi dir es' cur1 ch hch
          simp only [decide_eq_true_eq]
          intro hpp
          rw [hpp] at hpath
          exact hnotin (hpath ▸ List.mem_map_of_mem _ he2)
        have hstable := zipPass_stable zi dir e.name (setNone c) es' cur1
          hnotin hm2
        constructor
        · simp only [zipPass, hdir, hign, Bool.false_eq_true, if_neg,
            if_false, hmf]
          by_cases hcond : e.mtime < c.new_mtime ∨ ¬ c.new_size = e.size
          · rw [if_pos hcond, if_pos hcond]
            simp only [List.filter_cons, mkModified, decide_True,
              decide_eq_true_eq]
            simp [hrest_nil]
          · rw [if_neg hcond, if_neg hcond]
            exact hrest_nil
        · intro x hx
          refine hstable x ?_
          simp only [zipPass, hdir, hign, Bool.false_eq_true, if_neg,
            if_false, hmf] at hx
          by_cases hcond : e.mtime < c.new_mtime ∨ ¬ c.new_size = e.size
          · rw [if_pos hcond] at hx
            exact hx
          · rw [if_neg hcond] at hx
            exact hx
    · -- the head entry differs from e (distinct names)
      have hne : ¬ e'.name = e.name := by
        intro hh
        exact hE2.1 (hh ▸ List.mem_map_of_mem _ he2)
      by_cases hdir1 : e'.is_directory = true
      · simp only [zipPass, hdir1, if_pos]
        exact ih cur hE2.2 hC he2 hdir hign hc hcp
      · have hdir1' : e'.is_directory = false := by
          cases hx : e'.is_directory
          · rfl
          · exact absurd hx hdir1
        by_cases hign1 : should_ignore zi (fullDiskPath dir e'.name) = true
        · simp only [zipPass, hdir1', Bool.false_eq_true, if_neg, if_false,
            hign1, if_pos]
          exact ih cur hE2.2 hC he2 hdir hign hc hcp
        · have hign1' : should_ignore zi (fullDiskPath dir e'.name) = false := by
            cases hx : should_ignore zi (fullDiskPath dir e'.name)
            · rfl
            · exact absurd hx hign1
          cases hmf : mark_found e'.name cur with
          | mk o cur1 =>
            have hC1 : (cur1.map (fun x => x.path)).Nodup := by
              have := mark_found_map_path e'.name cur
              rw [hmf] at this
              rw [this]
              exact hC
            have hc1 : c ∈ cur1 := by
              have := mark_found_mem_of_ne e'.name cur c hc
                (by rw [hcp]; exact fun hh => hne hh.symm)
              rw [hmf] at this
              exact this
            have ihh := ih cur1 hE2.2 hC1 he2 hdir hign hc1 hcp
            cases o with
            | some cc =>
              simp only [zipPass, hdir1', hign1', Bool.false_eq_true, if_neg,
                if_false, hmf]
              by_cases hcond : e'.mtime < cc.new_mtime ∨ ¬ cc.new_size = e'.size
              · rw [if_pos hcond]
                constructor
                · simp only [List.filter_cons]
                  have : ¬ ((mkModified e' cc).path = e.name) := by
                    simp only [mkModified]
                    exact hne
                  simp only [this, decide_False, Bool.false_eq_true, if_neg,
                    if_false]
                  exact ihh.1
                · exact ihh.2
              · rw [if_neg hcond]
                exact ihh
            | none =>
              simp only [zipPass, hdir1', hign1', Bool.false_eq_true, if_neg,
                if_false, hmf]
              constructor
              · simp only [List.filter_cons]
                have : ¬ ((mkDeleted e').path = e.name) := by
                  simp only [mkDeleted]
                  exact hne
                simp only [this, decide_False, Bool.false_eq_true, if_neg,
                  if_false]
                exact ihh.1
              · exact ihh.2

theorem addedPass_not_ignored (zi : zipignore_t) (dir : List Char)
    (cur : List file_change_t) :
    ∀ ch ∈ addedPass zi dir cur,
      should_ignore zi (fullDiskPath dir ch.path) = false := by
  intro ch hch
  unfold addedPass at hch
  obtain ⟨cc, hccmem, hcceq⟩ := List.mem_map.mp hch
  obtain ⟨_, hcond⟩ := List.mem_filter.mp hccmem
  simp only [decide_eq_true_eq] at hcond
  have hpath : ch.path = cc.path := by rw [← hcceq]
  rw [hpath]
  cases hx : should_ignore zi (fullDiskPath dir cc.path)
  · rfl
  · exact absurd hx hcond.2

theorem addedPass_sources (zi : zipignore_t) (dir : List Char)
    (cur : List file_change_t) :
    ∀ ch ∈ addedPass zi dir cur,
      ∃ cc ∈ cur, cc.change_type = CHANGE_ADDED ∧ ch.path = cc.path := by
  intro ch hch
  unfold addedPass at hch
  obtain ⟨cc, hccmem, hcceq⟩ := List.mem_map.mp hch
  obtain ⟨hmem, hcond⟩ := List.mem_filter.mp hccmem
  simp only [decide_eq_true_eq] at hcond
  exact ⟨cc, hmem, hcond.1, by rw [← hcceq]⟩

def c1p : ignore_pattern_t :=
  { pattern := ['x'], scope_dir := ['b'],
    is_directory := false, is_negation := false, is_anchored := false }

def c1zi : zipignore_t :=
  { patterns := [c1p], base_dir := ['b'], loaded_files := [] }

def c1ziE : zipignore_t :=
  { patterns := [], base_dir := ['b'], loaded_files := [] }

def c1e : zip_entry_t :=
  { name := ['x'], mtime := 7, size := 3, is_directory := false }

/-- C1 counterexample: a non-directory archive entry (`x`, not present on
disk) whose on-disk path is ignored by the current rules produces NO change
at all — the diff skips ignored archive entries (src/diff.c 162-164), so no
Deleted change is recorded and the archive does not shed newly-ignored
entries. -/
theorem C1_counterexample_ignored_entry_not_deleted :
    should_ignore c1zi (fullDiskPath ['b'] c1e.name) = true ∧
    compare_with_existing_zip c1zi ['b'] [c1e] [] = [] := by
  refine ⟨by decide, by decide⟩

/-- C1 amended: a non-directory archive entry whose on-disk path is NOT
ignored and that matches no collected file is recorded as Deleted; an
archive entry whose on-disk path is ignored is skipped — the diff records
no change whatsoever for its path. -/
theorem C1_missing_entries_deleted_unless_ignored :
    (∀ (zi : zipignore_t) (dir : List Char) (es : List zip_entry_t)
        (cur : List file_change_t) (e : zip_entry_t),
        e ∈ es → e.is_directory = false →
        should_ignore zi (fullDiskPath dir e.name) = false →
        (∀ c ∈ cur, ¬ c.path = e.name) →
        mkDeleted e ∈ compare_with_existing_zip zi dir es cur) ∧
    (∀ (zi : zipignore_t) (dir : List Char) (es : List zip_entry_t)
        (cur : List file_change_t) (e : zip_entry_t),
        should_ignore zi (fullDiskPath dir e.name) = true →
        ∀ ch ∈ compare_with_existing_zip zi dir es cur,
          ¬ ch.path = e.name) := by
  constructor
  · intro zi dir es cur e he hdir hign hcur
    exact List.mem_append_left _ (zipPass_deleted_mem zi dir e es cur he
      hdir hign hcur)
  · intro zi dir es cur e hign ch hch hpath
    rcases List.mem_append.mp hch with h | h
    · obtain ⟨e2, _, _, hign2, hpath2⟩ :=
        zipPass_changes_from zi dir es cur ch h
      rw [hpath] at hpath2
      rw [← hpath2] at hign2
      rw [hign] at hign2
      cases hign2
    · have := addedPass_not_ignored zi dir _ ch h
      rw [hpath, hign] at this
      cases this

theorem C1_missing_entries_deleted_unless_ignored_witness :
    mkDeleted c1e ∈ compare_with_existing_zip c1ziE ['b'] [c1e] [] ∧
    (∀ ch ∈ compare_with_existing_zip c1zi ['b'] [c1e] [],
      ¬ ch.path = c1e.name) :=
  ⟨C1_missing_entries_deleted_unless_ignored.1 c1ziE ['b'] [c1e] [] c1e
     (by decide) (by decide) (by decide) (by decide),
   C1_missing_entries_deleted_unless_ignored.2 c1zi ['b'] [c1e] [] c1e
     (by decide)⟩

def c4p : ignore_pattern_t :=
  { pattern := ['x'], scope_dir := ['b'],
    is_directory := false, is_negation := false, is_anchored := false }

def c4zi : zipignore_t :=
  { patterns := [c4p], base_dir := ['b'], loaded_files := [] }

def c4ziE : zipignore_t :=
  { patterns := [], base_dir := ['b'], loaded_files := [] }

def c4e : zip_entry_t :=
  { name := ['x'], mtime := 0, size := 3, is_directory := false }

def c4c : file_change_t :=
  { path := ['x'], change_type := CHANGE_ADDED, old_mtime := 0,
    new_mtime := 9, old_size := 0, new_size := 3 }

/-- C4 counterexample: the file `x` is present both in the archive and on
disk and its current mtime is strictly newer, yet because its path is
ignored by the current rules the diff records no change at all — the
claimed "Modified iff newer-mtime-or-size-differs" equivalence fails for
ignored paths. -/
theorem C4_counterexample_ignored_modified_entry_unreported :
    c4c.path = c4e.name ∧ c4e.mtime < c4c.new_mtime ∧
    compare_with_existing_zip c4zi ['b'] [c4e] [c4c] = [] := by
  refine ⟨by decide, by decide, by decide⟩

/-- C4 amended: for an archive entry present both in the archive and among
the collected files and whose on-disk path is NOT ignored, the diff records
a change at that path exactly when the current mtime is strictly newer or
the sizes differ, and that change is the single Modified record carrying
the archive's old and the file's new mtime and size; with equal mtime and
equal size no change is recorded for the path (contents are never
consulted). -/
theorem C4_modified_iff_newer_or_resized :
    ∀ (zi : zipignore_t) (dir : List Char) (es : List zip_entry_t)
      (cur : List file_change_t) (e : zip_entry_t) (c : file_change_t),
      (es.map (fun x => x.name)).Nodup →
      (cur.map (fun x => x.path)).Nodup →
      e ∈ es → e.is_directory = false →
      should_ignore zi (fullDiskPath dir e.name) = false →
      c ∈ cur → c.path = e.name →
      (compare_with_existing_zip zi dir es cur).filter
          (fun ch => ch.path = e.name) =
        (if e.mtime < c.new_mtime ∨ ¬ c.new_size = e.size
         then [mkModified e c] else []) := by
  intro zi dir es cur e c hE hC he hdir hign hc hcp
  obtain ⟨hfil, hmark⟩ := zipPass_modified_filter zi dir e c es cur hE hC he
    hdir hign hc hcp
  have hadded : (addedPass zi dir (zipPass zi dir es cur).1).filter
      (fun ch => ch.path = e.name) = [] := by
    rw [List.filter_eq_nil_iff]
    intro ch hch
    simp only [decide_eq_true_eq]
    intro hpath
    obtain ⟨cc, hccmem, hcctype, hccpath⟩ :=
      addedPass_sources zi dir _ ch hch
    have hcc := hmark cc hccmem (by rw [← hccpath, hpath])
    rw [hcc] at hcctype
    simp [setNone] at hcctype
  show ((zipPass zi dir es cur).2 ++
      addedPass zi dir (zipPass zi dir es cur).1).filter
      (fun ch => ch.path = e.name) = _
  rw [List.filter_append, hfil, hadded, List.append_nil]

theorem C4_modified_iff_newer_or_resized_witness :
    (compare_with_existing_zip c4ziE ['b'] [c4e] [c4c]).filter
        (fun ch => ch.path = c4e.name) =
      (if c4e.mtime < c4c.new_mtime ∨ ¬ c4c.new_size = c4e.size
       then [mkModified c4e c4c] else []) :=
  C4_modified_iff_newer_or_resized c4ziE ['b'] [c4e] [c4c] c4e c4c
    (by decide) (by decide) (by decide) (by decide) (by decide) (by decide)
    (by decide)
